import Mathlib

set_option maxHeartbeats 1000000

/-!
Verification of the VDF ("KeyValues") parser/serializer and the
launch-options mutation engine of `ce-autostart.py`.

Text is modelled as `List Char`.  Python's nested `dict` (string keys in
insertion order, values either strings or nested dicts) is modelled by the
inductive `Dict` below; `Entry` is the value stored under one key.
The parser's `(tokens, index)` pair is modelled by the unconsumed token
suffix, and the recursion of `tokenize` / `parse_tokens` is made structural
with a fuel argument; fuel `|input|` is always sufficient (each step
consumes at least one element), which the fuel-irrelevance lemmas below make
precise.
-/

/-- Tokens produced by the tokenizer (`tokenize`, ce-autostart.py lines
283-311): quoted strings and the two brace characters. -/
inductive Token where
  | string : List Char → Token
  | braceOpen : Token
  | braceClose : Token
deriving DecidableEq, Repr

/-- The in-memory tree: a Python dict whose entries are either
leaf string values (`leafCons k v rest`) or nested dicts
(`secCons k s rest`), in insertion order. -/
inductive Dict where
  | nil : Dict
  | leafCons : List Char → List Char → Dict → Dict
  | secCons : List Char → Dict → Dict → Dict
deriving DecidableEq, Repr

/-- The value stored under one key of a `Dict`. -/
inductive Entry where
  | leafE : List Char → Entry
  | secE : Dict → Entry
deriving DecidableEq, Repr

/-- Rebuild a `Dict` node from a key and an `Entry`. -/
def consE (k : List Char) (e : Entry) (rest : Dict) : Dict :=
  match e with
  | Entry.leafE v => Dict.leafCons k v rest
  | Entry.secE s => Dict.secCons k s rest

/-- Python `d[k]` / `k in d`: first (hence only) binding of `k`. -/
def dget? : Dict → List Char → Option Entry
  | Dict.nil, _ => none
  | Dict.leafCons k' v r, k => if k' = k then some (Entry.leafE v) else dget? r k
  | Dict.secCons k' s r, k => if k' = k then some (Entry.secE s) else dget? r k

/-- Python `d[k] = e`: replace in place if `k` is bound, else append. -/
def dset : Dict → List Char → Entry → Dict
  | Dict.nil, k, e => consE k e Dict.nil
  | Dict.leafCons k' v r, k, e =>
      if k' = k then consE k' e r else Dict.leafCons k' v (dset r k e)
  | Dict.secCons k' s r, k, e =>
      if k' = k then consE k' e r else Dict.secCons k' s (dset r k e)

/-- Keys of a `Dict`, in order. -/
def dkeys : Dict → List (List Char)
  | Dict.nil => []
  | Dict.leafCons k _ r => k :: dkeys r
  | Dict.secCons k _ r => k :: dkeys r

/-- Concatenation of two `Dict`s (entry lists). -/
def dconcat : Dict → Dict → Dict
  | Dict.nil, e => e
  | Dict.leafCons k v r, e => Dict.leafCons k v (dconcat r e)
  | Dict.secCons k s r, e => Dict.secCons k s (dconcat r e)

/-- Insert every entry of the second dict into the first, in order,
with `dset` (Python's repeated `result[key] = value`). -/
def dapp : Dict → Dict → Dict
  | acc, Dict.nil => acc
  | acc, Dict.leafCons k v r => dapp (dset acc k (Entry.leafE v)) r
  | acc, Dict.secCons k s r => dapp (dset acc k (Entry.secE s)) r

/-- Fueled tokenizer, a direct transcription of `tokenize`
(ce-autostart.py lines 283-311): skip whitespace, `//` line comments,
read quoted strings up to the next `"` (silently up to end of input when
unterminated), emit brace tokens, skip anything else.  Fuel `|input|`
suffices: every step consumes at least one character. -/
def tokenizeF : Nat → List Char → List Token
  | 0, _ => []
  | _+1, [] => []
  | fuel+1, c :: cs =>
    if c.isWhitespace then tokenizeF fuel cs
    else if c = '/' ∧ cs.head? = some '/' then
      tokenizeF fuel (cs.dropWhile (fun x => x != '\n'))
    else if c = '"' then
      Token.string (cs.takeWhile (fun x => x != '"')) ::
        tokenizeF fuel ((cs.dropWhile (fun x => x != '"')).tail)
    else if c = '{' then Token.braceOpen :: tokenizeF fuel cs
    else if c = '}' then Token.braceClose :: tokenizeF fuel cs
    else tokenizeF fuel cs

/-- The tokenizer applied with sufficient fuel. -/
def tokenize (cs : List Char) : List Token := tokenizeF cs.length cs

/-- The tab-skipping loop of `parse_tokens` (lines 323-325): drop
`('STRING', '')` tokens. -/
def skipEmpty (ts : List Token) : List Token :=
  ts.dropWhile (fun t => decide (t = Token.string []))

/-- Fueled transcription of `parse_tokens` (lines 313-347).  The Python
`(tokens, index)` pair is modelled by the suffix of unconsumed tokens
(the index only moves forward and earlier tokens are never re-read); the
returned pair is `(result, remaining suffix)`.  Fuel `|tokens|` suffices:
every recursive call consumes at least one token. -/
def parseLoop : Nat → Dict → List Token → Dict × List Token
  | 0, acc, _ => (acc, [])
  | _+1, acc, [] => (acc, [])
  | fuel+1, acc, Token.string k :: rest =>
    match skipEmpty rest with
    | [] => (acc, [])
    | Token.braceOpen :: rest2 =>
      let n := parseLoop fuel Dict.nil rest2
      parseLoop fuel (dset acc k (Entry.secE n.1)) n.2
    | Token.string v :: rest2 =>
      parseLoop fuel (dset acc k (Entry.leafE v)) rest2
    | Token.braceClose :: rest2 => (acc, Token.braceClose :: rest2)
  | _+1, acc, Token.braceClose :: rest => (acc, rest)
  | fuel+1, acc, Token.braceOpen :: rest => parseLoop fuel acc rest

/-- Top-level `parse_tokens(tokens)` call (index 0, empty result). -/
def parse_tokens (ts : List Token) : Dict × List Token :=
  parseLoop ts.length Dict.nil ts

/-- Transcription of `parse_vdf` (lines 278-351): tokenize, parse, drop the
final index. -/
def parse_vdf (content : List Char) : Dict := (parse_tokens (tokenize content)).1

/-- Python `'\n'.join(lines)`. -/
def joinNL : List (List Char) → List Char
  | [] => []
  | [l] => l
  | l :: ls => l ++ '\n' :: joinNL ls

/-- Python `str.rstrip()`: remove trailing whitespace. -/
def rstrip (l : List Char) : List Char :=
  (l.reverse.dropWhile (fun c => c.isWhitespace)).reverse

/-- Indentation string `"\t" * indent`. -/
def tabs (n : Nat) : List Char := List.replicate n '\t'

/-- A quoted string `"s"`. -/
def quo (s : List Char) : List Char := '"' :: (s ++ ['"'])

/-- The `lines` list built by `write_vdf` (lines 354-370): a leaf entry is
one line `indent"key"\t\t"value"`; a nested dict contributes the key line,
a `{` line, the recursive rendering stripped of trailing whitespace as one
element, and a `}` line. -/
def linesOf : Dict → Nat → List (List Char)
  | Dict.nil, _ => []
  | Dict.leafCons k v rest, n =>
      (tabs n ++ quo k ++ '\t' :: '\t' :: quo v) :: linesOf rest n
  | Dict.secCons k s rest, n =>
      (tabs n ++ quo k) :: (tabs n ++ ['{']) ::
        rstrip (joinNL (linesOf s (n+1)) ++ ['\n']) :: (tabs n ++ ['}']) :: linesOf rest n

/-- Transcription of `write_vdf` (lines 354-370): join the lines with
newlines and append the final newline. -/
def write_vdf (d : Dict) (indent : Nat) : List Char :=
  joinNL (linesOf d indent) ++ ['\n']

/-- Token stream that serializing a `Dict` produces (proved below). -/
def toks : Dict → List Token
  | Dict.nil => []
  | Dict.leafCons k v r => Token.string k :: Token.string v :: toks r
  | Dict.secCons k s r =>
      Token.string k :: Token.braceOpen :: (toks s ++ Token.braceClose :: toks r)

/-- Quote-freeness of a string (the round-trip side condition of the spec). -/
def noQuote (s : List Char) : Bool := !(s.contains '"')

/-- Keys and values contain no quote character (exactly the hypothesis of
the round-trip claim). -/
def noQuoteDict : Dict → Bool
  | Dict.nil => true
  | Dict.leafCons k v r => noQuote k && noQuote v && noQuoteDict r
  | Dict.secCons k s r => noQuote k && noQuoteDict s && noQuoteDict r

/-- Well-formedness for round-tripping: within each dict the keys are
distinct and quote-free, every leaf value is quote-free and non-empty. -/
def goodDict : Dict → Bool
  | Dict.nil => true
  | Dict.leafCons k v r =>
      noQuote k && !((dkeys r).contains k) && (noQuote v && !v.isEmpty) && goodDict r
  | Dict.secCons k s r =>
      noQuote k && !((dkeys r).contains k) && goodDict s && goodDict r

/-- No leaf of the tree carries the empty string. -/
def noEmptyLeaf : Dict → Bool
  | Dict.nil => true
  | Dict.leafCons _ v r => !v.isEmpty && noEmptyLeaf r
  | Dict.secCons _ s r => noEmptyLeaf s && noEmptyLeaf r

/-- The literal key `"LaunchOptions"`. -/
def lkey : List Char := "LaunchOptions".toList

/-- The operation `modify_launch_options` performs at the app's section
(lines 573-596): `none` means the function returns `False` without writing
(value unchanged, or prompt declined); `some (s', b)` is the updated section
together with the backup row `(game id, old value)` appended by
`create_backup`, if any.  The prompt answer is modelled by the
already-stripped, lowercased `response` string; with `ask_if_exists` the
code proceeds exactly when the response is `y`. -/
def app_update (app_id new_launch_options : List Char) (ask_if_exists : Bool)
    (response : List Char) (app_section : Dict) :
    Option (Dict × Option (List Char × Entry)) :=
  match dget? app_section lkey with
  | some current_value =>
    if current_value = Entry.leafE new_launch_options then none
    else if ask_if_exists ∧ (response = "skip".toList ∨ response = "n".toList) then none
    else if ask_if_exists ∧ response ≠ "y".toList then none
    else some (dset app_section lkey (Entry.leafE new_launch_options),
               some (app_id, current_value))
  | none => some (dset app_section lkey (Entry.leafE new_launch_options), none)

/-- The `setdefault` chain of lines 559-571, functionally: walk the path,
creating an empty dict at an absent segment, and apply `f` at the target.
`none` models the exceptions the source catches and turns into `return
False`: an `AttributeError` when an intermediate segment holds a string
(`str.setdefault` does not exist), and, for the final segment, the
`TypeError` raised later when the string returned by `setdefault` is
indexed or item-assigned — in every such case the function returns `False`
having mutated nothing that is ever written. -/
def ensure_apply (f : Dict → Option (Dict × Option (List Char × Entry))) :
    Dict → List (List Char) → Option (Dict × Option (List Char × Entry))
  | d, [] => f d
  | d, k :: ks =>
    match dget? d k with
    | none =>
      match ensure_apply f Dict.nil ks with
      | some (s', b) => some (dset d k (Entry.secE s'), b)
      | none => none
    | some (Entry.secE s) =>
      match ensure_apply f s ks with
      | some (s', b) => some (dset d k (Entry.secE s'), b)
      | none => none
    | some (Entry.leafE _) => none

/-- The fixed path `Software/Valve/Steam/apps/<app_id>` of lines 559-568. -/
def steam_path_keys (app_id : List Char) : List (List Char) :=
  ["Software".toList, "Valve".toList, "Steam".toList, "apps".toList, app_id]

/-- Transcription of `modify_launch_options` (lines 541-608) as a function
of the current file content: returns the Python result (`True` iff the file
was rewritten), the file content after the call, and the backup row
appended (if any).  On any early `return False` the file is untouched and
no backup is appended; on success the whole tree is re-serialized. -/
def modify_launch_options (app_id new_launch_options content : List Char)
    (ask_if_exists : Bool) (response : List Char) :
    Bool × List Char × Option (List Char × Entry) :=
  match ensure_apply (app_update app_id new_launch_options ask_if_exists response)
      (parse_vdf content) (steam_path_keys app_id) with
  | none => (false, content, none)
  | some (d', b) => (true, write_vdf d' 0, b)

/-- The accounting loop of `cmd_modify_all_launchoptions` (lines 663-670):
run `modify_launch_options` once per installed app id, threading the file
content, counting `(modified, skipped)` and returning the final content.
`response` gives the operator's per-item prompt answer. -/
def modify_all_loop (template : List Char) (response : List Char → List Char) :
    List (List Char) → List Char → Nat × Nat × List Char
  | [], content => (0, 0, content)
  | app_id :: rest, content =>
    let r := modify_launch_options app_id template content true (response app_id)
    let acc := modify_all_loop template response rest r.2.1
    if r.1 then (acc.1 + 1, acc.2.1, acc.2.2) else (acc.1, acc.2.1 + 1, acc.2.2)

/-- One backup table row `| <game id> | <old value> |` (line 524). -/
def backup_row (game_id original_value : List Char) : List Char :=
  "| ".toList ++ game_id ++ " | ".toList ++ original_value ++ " |\n".toList

/-- The header block written on first use (lines 531-535): title, generation
timestamp, column header, separator. -/
def backup_header (generated_ts : List Char) : List Char :=
  "# Launch Options Backup\n\n".toList ++ "Generated: ".toList ++ generated_ts
    ++ "\n\n".toList ++ "| Game ID | Original LaunchOptions |\n".toList
    ++ "|---------|------------------------|\n".toList

/-- Transcription of `create_backup` (lines 514-538) as a function from the
backup file's current content (`none` when the file does not exist yet) to
its new content; the timestamped file selection is modelled by the
`existing` argument. -/
def create_backup (game_id original_value generated_ts : List Char)
    (existing : Option (List Char)) : List Char :=
  match existing with
  | some c => c ++ backup_row game_id original_value
  | none => backup_header generated_ts ++ backup_row game_id original_value

/-- Strict lookup: the nested section reached by following `path`, if every
segment exists and is a section. -/
def sectionAt : Dict → List (List Char) → Option Dict
  | d, [] => some d
  | d, k :: ks =>
    match dget? d k with
    | some (Entry.secE s) => sectionAt s ks
    | _ => none

/-- The section `ensure_apply` would hand to its operation: follow `path`,
treating an absent segment as a fresh empty dict; `none` when an existing
segment holds a leaf. -/
def ensuredTarget : Dict → List (List Char) → Option Dict
  | d, [] => some d
  | d, k :: ks =>
    match dget? d k with
    | none => ensuredTarget Dict.nil ks
    | some (Entry.secE s) => ensuredTarget s ks
    | some (Entry.leafE _) => none

/-- Some segment of `path` exists but holds a leaf where a section is
required. -/
def pathBlocked : Dict → List (List Char) → Bool
  | _, [] => false
  | d, k :: ks =>
    match dget? d k with
    | some (Entry.leafE _) => true
    | some (Entry.secE s) => pathBlocked s ks
    | none => false

/-- The app currently has a `LaunchOptions` leaf different from `template`
(so a modification attempt will reach the confirmation prompt). -/
def hasOtherValue (d : Dict) (app_id template : List Char) : Bool :=
  match sectionAt d (steam_path_keys app_id) with
  | some s =>
    match dget? s lkey with
    | some (Entry.leafE w) => decide (w ≠ template)
    | _ => false
  | none => false

/-- Token stream of `n` nested sections `"a" { "a" { ... `, never closed. -/
def nestTokens : Nat → List Token
  | 0 => []
  | n+1 => Token.string ['a'] :: Token.braceOpen :: nestTokens n

/-- The tree of `n` nested singleton sections. -/
def nestedDict : Nat → Dict
  | 0 => Dict.nil
  | n+1 => Dict.secCons ['a'] (nestedDict n) Dict.nil

/-! ## Helper lemmas: lists -/

theorem takeWhile_append_all {p : Char → Bool} :
    ∀ {s : List Char} (t : List Char), (∀ c ∈ s, p c = true) →
      (s ++ t).takeWhile p = s ++ t.takeWhile p := by
  intro s
  induction s with
  | nil => intro t _; simp
  | cons a s ih =>
    intro t h
    simp only [List.cons_append, List.takeWhile_cons, h a (by simp), if_pos]
    rw [ih t (fun c hc => h c (by simp [hc]))]

theorem dropWhile_append_all {p : Char → Bool} :
    ∀ {s : List Char} (t : List Char), (∀ c ∈ s, p c = true) →
      (s ++ t).dropWhile p = t.dropWhile p := by
  intro s
  induction s with
  | nil => intro t _; simp
  | cons a s ih =>
    intro t h
    simp only [List.cons_append, List.dropWhile_cons, h a (by simp), if_pos]
    exact ih t (fun c hc => h c (by simp [hc]))

theorem noQuote_iff {s : List Char} : noQuote s = true ↔ ∀ c ∈ s, c ≠ '"' := by
  unfold noQuote
  rw [Bool.not_eq_true', ← Bool.not_eq_true]
  constructor
  · intro h c hc he
    exact h (List.elem_iff.2 (he ▸ hc))
  · intro h hc
    exact h '"' (List.elem_iff.1 hc) rfl

theorem dropWhile_head_false {α : Type} {p : α → Bool} :
    ∀ {l : List α} {x : α} {xs : List α}, l.dropWhile p = x :: xs → p x = false := by
  intro l
  induction l with
  | nil => intro x xs h; simp at h
  | cons a l ih =>
    intro x xs h
    rw [List.dropWhile_cons] at h
    by_cases hp : p a = true
    · rw [if_pos hp] at h; exact ih h
    · rw [if_neg hp] at h
      cases h
      exact Bool.not_eq_true _ ▸ hp

theorem skipEmpty_head_ne {ts : List Token} {v : List Char} {rest : List Token}
    (h : skipEmpty ts = Token.string v :: rest) : v ≠ [] := by
  intro hv
  subst hv
  have := dropWhile_head_false h
  simp at this

/-! ## Tokenizer lemmas -/

theorem tokenizeF_irrel :
    ∀ (f₁ : Nat) {f₂ : Nat} {cs : List Char}, cs.length ≤ f₁ → cs.length ≤ f₂ →
      tokenizeF f₁ cs = tokenizeF f₂ cs := by
  intro f₁
  induction f₁ with
  | zero =>
    intro f₂ cs h₁ _
    have : cs = [] := List.length_eq_zero.1 (Nat.le_zero.1 h₁)
    subst this
    cases f₂ <;> rfl
  | succ f ih =>
    intro f₂ cs h₁ h₂
    cases cs with
    | nil => cases f₂ <;> rfl
    | cons c cs =>
      cases f₂ with
      | zero => exact absurd h₂ (by simp)
      | succ f' =>
        simp only [tokenizeF]
        have hdw : (cs.dropWhile (fun x => x != '\n')).length ≤ cs.length :=
          (List.dropWhile_sublist _).length_le
        have hdw2 : ((cs.dropWhile (fun x => x != '"')).tail).length ≤ cs.length := by
          have := (@List.dropWhile_sublist Char cs (fun x => x != '"')).length_le
          rw [List.length_tail]
          omega
        have hcs : cs.length ≤ f := by simp only [List.length_cons] at h₁; omega
        have hcs' : cs.length ≤ f' := by simp only [List.length_cons] at h₂; omega
        split
        · exact ih hcs hcs'
        · split
          · exact ih (le_trans hdw hcs) (le_trans hdw hcs')
          · split
            · rw [ih (le_trans hdw2 hcs) (le_trans hdw2 hcs')]
            · split
              · rw [ih hcs hcs']
              · split
                · rw [ih hcs hcs']
                · exact ih hcs hcs'

theorem tokenizeF_nil : ∀ f, tokenizeF f [] = [] := by
  intro f; cases f <;> rfl

theorem tokenize_ws {c : Char} (h : c.isWhitespace = true) (cs : List Char) :
    tokenize (c :: cs) = tokenize cs := by
  show tokenizeF (cs.length + 1) (c :: cs) = tokenize cs
  simp only [tokenizeF, h, if_pos]
  rfl

theorem tokenize_tabs (n : Nat) (cs : List Char) :
    tokenize (tabs n ++ cs) = tokenize cs := by
  induction n with
  | zero => rfl
  | succ n ih =>
    show tokenize ('\t' :: (tabs n ++ cs)) = tokenize cs
    rw [tokenize_ws (by decide), ih]

theorem tokenize_quo {s : List Char} (h : noQuote s = true) (cs : List Char) :
    tokenize (quo s ++ cs) = Token.string s :: tokenize cs := by
  have hall : ∀ c ∈ s, (c != '"') = true := by
    intro c hc
    exact bne_iff_ne.2 (noQuote_iff.1 h c hc)
  have hsh : quo s ++ cs = '"' :: (s ++ '"' :: cs) := by simp [quo]
  rw [hsh]
  have h1 : tokenize ('"' :: (s ++ '"' :: cs)) =
      Token.string ((s ++ '"' :: cs).takeWhile (fun x => x != '"')) ::
        tokenizeF (s ++ '"' :: cs).length
          (((s ++ '"' :: cs).dropWhile (fun x => x != '"')).tail) := rfl
  rw [h1, takeWhile_append_all _ hall, dropWhile_append_all _ hall]
  have ht : List.takeWhile (fun x => x != '"') ('"' :: cs) = [] := rfl
  have hd : List.dropWhile (fun x => x != '"') ('"' :: cs) = '"' :: cs := rfl
  rw [ht, hd]
  simp only [List.append_nil, List.tail_cons]
  rw [tokenizeF_irrel _ (by simp; omega) (le_refl cs.length)]
  rfl

theorem tokenize_unterminated {s : List Char} (h : noQuote s = true) :
    tokenize ('"' :: s) = [Token.string s] := by
  have hall : ∀ c ∈ s, (c != '"') = true := by
    intro c hc
    exact bne_iff_ne.2 (noQuote_iff.1 h c hc)
  have h1 : tokenize ('"' :: s) =
      Token.string (s.takeWhile (fun x => x != '"')) ::
        tokenizeF s.length ((s.dropWhile (fun x => x != '"')).tail) := rfl
  have ht : s.takeWhile (fun x => x != '"') = s := by
    have := takeWhile_append_all ([] : List Char) hall
    simpa using this
  have hd : s.dropWhile (fun x => x != '"') = [] := by
    have := dropWhile_append_all ([] : List Char) hall
    simpa using this
  rw [h1, ht, hd]
  simp [tokenizeF_nil]

theorem tokenize_open (cs : List Char) :
    tokenize ('{' :: cs) = Token.braceOpen :: tokenize cs := rfl

theorem tokenize_close (cs : List Char) :
    tokenize ('}' :: cs) = Token.braceClose :: tokenize cs := rfl

/-! ## Serializer lemmas -/

theorem joinNL_cons_ne {ls : List (List Char)} (l : List Char) (h : ls ≠ []) :
    joinNL (l :: ls) = l ++ '\n' :: joinNL ls := by
  cases ls with
  | nil => exact absurd rfl h
  | cons a t => rfl

theorem linesOf_eq_nil {d : Dict} {n : Nat} : linesOf d n = [] ↔ d = Dict.nil := by
  cases d <;> simp [linesOf]

theorem ends_cons_nl {X : List Char} (l : List Char)
    (h : ∃ Y c, X = Y ++ [c] ∧ c.isWhitespace = false) :
    ∃ Y c, l ++ '\n' :: X = Y ++ [c] ∧ c.isWhitespace = false := by
  obtain ⟨Y, c, rfl, hc⟩ := h
  exact ⟨l ++ '\n' :: Y, c, by simp, hc⟩

theorem joinNL_linesOf_ends :
    ∀ (d : Dict) (n : Nat), d ≠ Dict.nil →
      ∃ Y c, joinNL (linesOf d n) = Y ++ [c] ∧ c.isWhitespace = false := by
  intro d
  induction d with
  | nil => intro n h; exact absurd rfl h
  | leafCons k v r ih =>
    intro n _
    by_cases hr : r = Dict.nil
    · subst hr
      refine ⟨tabs n ++ quo k ++ '\t' :: '\t' :: '"' :: v, '"', ?_, by decide⟩
      simp [linesOf, joinNL, quo]
    · rw [show linesOf (Dict.leafCons k v r) n =
          (tabs n ++ quo k ++ '\t' :: '\t' :: quo v) :: linesOf r n from rfl,
        joinNL_cons_ne _ (by simpa [linesOf_eq_nil] using hr)]
      exact ends_cons_nl _ (ih n hr)
  | secCons k s r ihs ihr =>
    intro n _
    by_cases hr : r = Dict.nil
    · subst hr
      refine ⟨(tabs n ++ quo k) ++ '\n' :: ((tabs n ++ ['{']) ++ '\n' ::
          (rstrip (joinNL (linesOf s (n+1)) ++ ['\n']) ++ '\n' :: tabs n)), '}', ?_, by decide⟩
      simp [linesOf, joinNL]
    · rw [show linesOf (Dict.secCons k s r) n =
          (tabs n ++ quo k) :: (tabs n ++ ['{']) ::
            rstrip (joinNL (linesOf s (n+1)) ++ ['\n']) :: (tabs n ++ ['}']) :: linesOf r n
          from rfl]
      rw [joinNL_cons_ne _ (by simp), joinNL_cons_ne _ (by simp),
        joinNL_cons_ne _ (by simp),
        joinNL_cons_ne _ (by simpa [linesOf_eq_nil] using hr)]
      exact ends_cons_nl _ (ends_cons_nl _ (ends_cons_nl _ (ends_cons_nl _ (ihr n hr))))

theorem rstrip_snoc (Y : List Char) (c : Char) (hc : c.isWhitespace = false) :
    rstrip ((Y ++ [c]) ++ ['\n']) = Y ++ [c] := by
  unfold rstrip
  have h1 : ((Y ++ [c]) ++ ['\n']).reverse = '\n' :: c :: Y.reverse := by simp
  rw [h1, List.dropWhile_cons, if_pos (by decide), List.dropWhile_cons, if_neg (by simp [hc])]
  simp

theorem rstrip_write (d : Dict) (n : Nat) :
    rstrip (joinNL (linesOf d n) ++ ['\n']) = joinNL (linesOf d n) := by
  by_cases hd : d = Dict.nil
  · subst hd; rfl
  · obtain ⟨Y, c, hY, hc⟩ := joinNL_linesOf_ends d n hd
    rw [hY, rstrip_snoc Y c hc]

theorem tok_leaf_line {k v : List Char} (hk : noQuote k = true) (hv : noQuote v = true)
    (n : Nat) (X : List Char) :
    tokenize ((tabs n ++ quo k ++ '\t' :: '\t' :: quo v) ++ X) =
      Token.string k :: Token.string v :: tokenize X := by
  have h1 : (tabs n ++ quo k ++ '\t' :: '\t' :: quo v) ++ X =
      tabs n ++ (quo k ++ ('\t' :: '\t' :: (quo v ++ X))) := by simp
  rw [h1, tokenize_tabs, tokenize_quo hk, tokenize_ws (by decide), tokenize_ws (by decide),
    tokenize_quo hv]

theorem tok_key_line {k : List Char} (hk : noQuote k = true) (n : Nat) (X : List Char) :
    tokenize ((tabs n ++ quo k) ++ X) = Token.string k :: tokenize X := by
  have h1 : (tabs n ++ quo k) ++ X = tabs n ++ (quo k ++ X) := by simp
  rw [h1, tokenize_tabs, tokenize_quo hk]

theorem tok_open_line (n : Nat) (X : List Char) :
    tokenize ((tabs n ++ ['{']) ++ X) = Token.braceOpen :: tokenize X := by
  have h1 : (tabs n ++ ['{']) ++ X = tabs n ++ ('{' :: X) := by simp
  rw [h1, tokenize_tabs, tokenize_open]

theorem tok_close_line (n : Nat) (X : List Char) :
    tokenize ((tabs n ++ ['}']) ++ X) = Token.braceClose :: tokenize X := by
  have h1 : (tabs n ++ ['}']) ++ X = tabs n ++ ('}' :: X) := by simp
  rw [h1, tokenize_tabs, tokenize_close]

theorem tokenize_linesOf :
    ∀ (d : Dict) (n : Nat), noQuoteDict d = true →
      ∀ rest, tokenize (joinNL (linesOf d n) ++ rest) = toks d ++ tokenize rest := by
  intro d
  induction d with
  | nil => intro n _ rest; simp [linesOf, joinNL, toks]
  | leafCons k v r ih =>
    intro n h rest
    obtain ⟨hk, hv, hr⟩ : noQuote k = true ∧ noQuote v = true ∧ noQuoteDict r = true := by
      simpa [noQuoteDict, Bool.and_eq_true, and_assoc] using h
    rw [show linesOf (Dict.leafCons k v r) n =
        (tabs n ++ quo k ++ '\t' :: '\t' :: quo v) :: linesOf r n from rfl]
    by_cases hnil : r = Dict.nil
    · subst hnil
      show tokenize ((tabs n ++ quo k ++ '\t' :: '\t' :: quo v) ++ rest) = _
      rw [tok_leaf_line hk hv]
      rfl
    · rw [joinNL_cons_ne _ (by simpa [linesOf_eq_nil] using hnil)]
      have h2 : (tabs n ++ quo k ++ '\t' :: '\t' :: quo v) ++ '\n' :: joinNL (linesOf r n)
            ++ rest =
          (tabs n ++ quo k ++ '\t' :: '\t' :: quo v) ++
            ('\n' :: (joinNL (linesOf r n) ++ rest)) := by simp
      rw [h2, tok_leaf_line hk hv, tokenize_ws (by decide), ih n hr rest]
      rfl
  | secCons k s r ihs ihr =>
    intro n h rest
    obtain ⟨hk, hs, hr⟩ : noQuote k = true ∧ noQuoteDict s = true ∧ noQuoteDict r = true := by
      simpa [noQuoteDict, Bool.and_eq_true, and_assoc] using h
    rw [show linesOf (Dict.secCons k s r) n =
        (tabs n ++ quo k) :: (tabs n ++ ['{']) ::
          rstrip (joinNL (linesOf s (n+1)) ++ ['\n']) :: (tabs n ++ ['}']) :: linesOf r n
        from rfl, rstrip_write]
    rw [joinNL_cons_ne _ (by simp), joinNL_cons_ne _ (by simp), joinNL_cons_ne _ (by simp)]
    by_cases hnil : r = Dict.nil
    · subst hnil
      rw [show linesOf Dict.nil n = [] from rfl]
      have h2 : ((tabs n ++ quo k) ++ '\n' :: ((tabs n ++ ['{']) ++ '\n' ::
            (joinNL (linesOf s (n+1)) ++ '\n' :: joinNL [tabs n ++ ['}']]))) ++ rest =
          (tabs n ++ quo k) ++ ('\n' :: ((tabs n ++ ['{']) ++ ('\n' ::
            (joinNL (linesOf s (n+1)) ++ ('\n' :: ((tabs n ++ ['}']) ++ rest)))))) := by
        simp [joinNL]
      rw [h2, tok_key_line hk, tokenize_ws (by decide), tok_open_line,
        tokenize_ws (by decide), ihs (n+1) hs, tokenize_ws (by decide), tok_close_line]
      simp [toks]
    · rw [joinNL_cons_ne _ (by simpa [linesOf_eq_nil] using hnil)]
      have h2 : ((tabs n ++ quo k) ++ '\n' :: ((tabs n ++ ['{']) ++ '\n' ::
            (joinNL (linesOf s (n+1)) ++ '\n' ::
              ((tabs n ++ ['}']) ++ '\n' :: joinNL (linesOf r n))))) ++ rest =
          (tabs n ++ quo k) ++ ('\n' :: ((tabs n ++ ['{']) ++ ('\n' ::
            (joinNL (linesOf s (n+1)) ++ ('\n' :: ((tabs n ++ ['}']) ++
              ('\n' :: (joinNL (linesOf r n) ++ rest)))))))) := by
        simp
      rw [h2, tok_key_line hk, tokenize_ws (by decide), tok_open_line,
        tokenize_ws (by decide), ihs (n+1) hs, tokenize_ws (by decide), tok_close_line,
        tokenize_ws (by decide), ihr n hr rest]
      simp [toks]

theorem tokenize_write_vdf {d : Dict} (h : noQuoteDict d = true) :
    ∀ n, tokenize (write_vdf d n) = toks d := by
  intro n
  unfold write_vdf
  rw [tokenize_linesOf d n h ['\n'], tokenize_ws (by decide)]
  rw [show tokenize [] = [] from rfl]
  simp

/-! ## Parser lemmas -/

theorem parseLoop_zero (acc : Dict) (ts : List Token) : parseLoop 0 acc ts = (acc, []) := rfl

theorem parseLoop_nil : ∀ (f : Nat) (acc : Dict), parseLoop f acc [] = (acc, []) := by
  intro f acc; cases f <;> rfl

theorem parseLoop_string (f : Nat) (acc : Dict) (k : List Char) (rest : List Token) :
    parseLoop (f+1) acc (Token.string k :: rest) =
      (match skipEmpty rest with
       | [] => (acc, [])
       | Token.braceOpen :: rest2 =>
         let n := parseLoop f Dict.nil rest2
         parseLoop f (dset acc k (Entry.secE n.1)) n.2
       | Token.string v :: rest2 => parseLoop f (dset acc k (Entry.leafE v)) rest2
       | Token.braceClose :: rest2 => (acc, Token.braceClose :: rest2)) := rfl

theorem parseLoop_close (f : Nat) (acc : Dict) (rest : List Token) :
    parseLoop (f+1) acc (Token.braceClose :: rest) = (acc, rest) := rfl

theorem parseLoop_open (f : Nat) (acc : Dict) (rest : List Token) :
    parseLoop (f+1) acc (Token.braceOpen :: rest) = parseLoop f acc rest := rfl

theorem skipEmpty_length (rest : List Token) : (skipEmpty rest).length ≤ rest.length :=
  (List.dropWhile_sublist _).length_le

theorem parseLoop_suffix :
    ∀ (f : Nat) (acc : Dict) (ts : List Token), (parseLoop f acc ts).2.length ≤ ts.length := by
  intro f
  induction f with
  | zero => intro acc ts; simp [parseLoop_zero]
  | succ f ih =>
    intro acc ts
    cases ts with
    | nil => simp [parseLoop_nil]
    | cons t rest =>
      cases t with
      | string k =>
        rw [parseLoop_string]
        have hskip := skipEmpty_length rest
        cases hse : skipEmpty rest with
        | nil => simp
        | cons u rest2 =>
          have hlen : rest2.length + 1 ≤ rest.length := by
            rw [hse] at hskip; simpa using hskip
          cases u with
          | string v =>
            have h1 := ih (dset acc k (Entry.leafE v)) rest2
            simp only [List.length_cons]
            omega
          | braceOpen =>
            have h1 := ih Dict.nil rest2
            have h2 := ih (dset acc k (Entry.secE (parseLoop f Dict.nil rest2).1))
              (parseLoop f Dict.nil rest2).2
            simp only [List.length_cons]
            omega
          | braceClose => simp only [List.length_cons]; omega
      | braceOpen =>
        rw [parseLoop_open]
        exact le_trans (ih acc rest) (by simp)
      | braceClose =>
        rw [parseLoop_close]
        simp

theorem parseLoop_irrel :
    ∀ (f₁ : Nat) {f₂ : Nat} (acc : Dict) {ts : List Token},
      ts.length ≤ f₁ → ts.length ≤ f₂ → parseLoop f₁ acc ts = parseLoop f₂ acc ts := by
  intro f₁
  induction f₁ with
  | zero =>
    intro f₂ acc ts h₁ _
    have : ts = [] := List.length_eq_zero.1 (Nat.le_zero.1 h₁)
    subst this
    rw [parseLoop_zero, parseLoop_nil]
  | succ f ih =>
    intro f₂ acc ts h₁ h₂
    cases ts with
    | nil => rw [parseLoop_nil, parseLoop_nil]
    | cons t rest =>
      cases f₂ with
      | zero => exact absurd h₂ (by simp)
      | succ f' =>
        have hr : rest.length ≤ f := by simp only [List.length_cons] at h₁; omega
        have hr' : rest.length ≤ f' := by simp only [List.length_cons] at h₂; omega
        cases t with
        | string k =>
          rw [parseLoop_string, parseLoop_string]
          have hskip := skipEmpty_length rest
          cases hse : skipEmpty rest with
          | nil => rfl
          | cons u rest2 =>
            have hlen : rest2.length + 1 ≤ rest.length := by
              rw [hse] at hskip; simpa using hskip
            cases u with
            | string v =>
              exact ih _ (by omega) (by omega)
            | braceOpen =>
              simp only
              rw [@ih f' Dict.nil rest2 (by omega) (by omega)]
              have hsfx := parseLoop_suffix f' Dict.nil rest2
              exact ih _ (by omega) (by omega)
            | braceClose => rfl
        | braceOpen =>
          rw [parseLoop_open, parseLoop_open]
          exact ih acc hr hr'
        | braceClose => rw [parseLoop_close, parseLoop_close]

/-! ## Dict operation lemmas -/

theorem contains_iff_mem {l : List (List Char)} {k : List Char} :
    l.contains k = true ↔ k ∈ l := List.elem_iff

theorem dkeys_consE (k : List Char) (e : Entry) (r : Dict) :
    dkeys (consE k e r) = k :: dkeys r := by
  cases e <;> rfl

theorem dget?_dset_self : ∀ (d : Dict) (k : List Char) (e : Entry),
    dget? (dset d k e) k = some e := by
  intro d
  induction d with
  | nil =>
    intro k e
    cases e <;> simp [dset, consE, dget?]
  | leafCons k' v r ih =>
    intro k e
    by_cases hk : k' = k
    · subst hk
      cases e <;> simp [dset, consE, dget?]
    · simp [dset, hk, dget?, ih]
  | secCons k' s r ihs ihr =>
    intro k e
    by_cases hk : k' = k
    · subst hk
      cases e <;> simp [dset, consE, dget?]
    · simp [dset, hk, dget?, ihr]

theorem dget?_dset_ne : ∀ (d : Dict) {k k' : List Char} (e : Entry), k' ≠ k →
    dget? (dset d k e) k' = dget? d k' := by
  intro d
  induction d with
  | nil =>
    intro k k' e h
    have h' : ¬ k = k' := fun hh => h hh.symm
    cases e <;> simp [dset, consE, dget?, h']
  | leafCons k'' v r ih =>
    intro k k' e h
    have h' : ¬ k = k' := fun hh => h hh.symm
    by_cases hk : k'' = k
    · subst hk
      cases e <;> simp [dset, consE, dget?, h']
    · simp only [dset, hk, if_neg, dget?]
      split
      · rfl
      · exact ih e h
  | secCons k'' s r ihs ihr =>
    intro k k' e h
    have h' : ¬ k = k' := fun hh => h hh.symm
    by_cases hk : k'' = k
    · subst hk
      cases e <;> simp [dset, consE, dget?, h']
    · simp only [dset, hk, if_neg, dget?]
      split
      · rfl
      · exact ihr e h

theorem dkeys_dconcat : ∀ (a b : Dict), dkeys (dconcat a b) = dkeys a ++ dkeys b := by
  intro a b
  induction a with
  | nil => rfl
  | leafCons k v r ih => simp [dconcat, dkeys, ih]
  | secCons k s r ihs ihr => simp [dconcat, dkeys, ihr]

theorem dconcat_nil : ∀ (a : Dict), dconcat a Dict.nil = a := by
  intro a
  induction a with
  | nil => rfl
  | leafCons k v r ih => simp [dconcat, ih]
  | secCons k s r ihs ihr => simp [dconcat, ihr]

theorem dconcat_assoc : ∀ (a b c : Dict), dconcat (dconcat a b) c = dconcat a (dconcat b c) := by
  intro a b c
  induction a with
  | nil => rfl
  | leafCons k v r ih => simp [dconcat, ih]
  | secCons k s r ihs ihr => simp [dconcat, ihr]

theorem dset_not_mem : ∀ (d : Dict) {k : List Char} (e : Entry), k ∉ dkeys d →
    dset d k e = dconcat d (consE k e Dict.nil) := by
  intro d
  induction d with
  | nil => intro k e _; rfl
  | leafCons k' v r ih =>
    intro k e h
    have hk : k' ≠ k := by intro hh; exact h (by simp [dkeys, hh])
    have hr : k ∉ dkeys r := by
      intro hm
      exact h (by simp only [dkeys, List.mem_cons]; exact Or.inr hm)
    simp [dset, hk, dconcat, ih e hr]
  | secCons k' s r ihs ihr =>
    intro k e h
    have hk : k' ≠ k := by intro hh; exact h (by simp [dkeys, hh])
    have hr : k ∉ dkeys r := by
      intro hm
      exact h (by simp only [dkeys, List.mem_cons]; exact Or.inr hm)
    simp [dset, hk, dconcat, ihr e hr]

theorem goodDict_leaf {k v : List Char} {r : Dict} :
    goodDict (Dict.leafCons k v r) = true ↔
      noQuote k = true ∧ k ∉ dkeys r ∧ noQuote v = true ∧ v ≠ [] ∧ goodDict r = true := by
  simp only [goodDict, Bool.and_eq_true, Bool.not_eq_true']
  constructor
  · rintro ⟨⟨⟨h1, h2⟩, h3, h4⟩, h5⟩
    refine ⟨h1, ?_, h3, by simpa using h4, h5⟩
    intro hm
    rw [contains_iff_mem.2 hm] at h2
    exact Bool.false_ne_true h2.symm
  · rintro ⟨h1, h2, h3, h4, h5⟩
    refine ⟨⟨⟨h1, ?_⟩, h3, by simpa using h4⟩, h5⟩
    rw [← Bool.not_eq_true]
    intro hc
    exact h2 (contains_iff_mem.1 hc)

theorem goodDict_sec {k : List Char} {s r : Dict} :
    goodDict (Dict.secCons k s r) = true ↔
      noQuote k = true ∧ k ∉ dkeys r ∧ goodDict s = true ∧ goodDict r = true := by
  simp only [goodDict, Bool.and_eq_true, Bool.not_eq_true']
  constructor
  · rintro ⟨⟨⟨h1, h2⟩, h3⟩, h5⟩
    refine ⟨h1, ?_, h3, h5⟩
    intro hm
    rw [contains_iff_mem.2 hm] at h2
    exact Bool.false_ne_true h2.symm
  · rintro ⟨h1, h2, h3, h5⟩
    refine ⟨⟨⟨h1, ?_⟩, h3⟩, h5⟩
    rw [← Bool.not_eq_true]
    intro hc
    exact h2 (contains_iff_mem.1 hc)

theorem dapp_disjoint : ∀ (d acc : Dict), goodDict d = true →
    (∀ x ∈ dkeys d, x ∉ dkeys acc) → dapp acc d = dconcat acc d := by
  intro d
  induction d with
  | nil => intro acc _ _; rw [dconcat_nil]; rfl
  | leafCons k v r ih =>
    intro acc h hdisj
    obtain ⟨_, hk, _, _, hr⟩ := goodDict_leaf.1 h
    rw [show dapp acc (Dict.leafCons k v r) = dapp (dset acc k (Entry.leafE v)) r from rfl]
    rw [dset_not_mem acc _ (hdisj k (by simp [dkeys]))]
    rw [ih _ hr ?_]
    · rw [dconcat_assoc]
      rfl
    · intro x hx
      rw [dkeys_dconcat]
      simp only [List.mem_append, dkeys_consE, dkeys]
      rintro (hc | hc)
      · exact hdisj x (by simp [dkeys, hx]) hc
      · simp at hc
        subst hc
        exact hk hx
  | secCons k s r ihs ihr =>
    intro acc h hdisj
    obtain ⟨_, hk, _, hr⟩ := goodDict_sec.1 h
    rw [show dapp acc (Dict.secCons k s r) = dapp (dset acc k (Entry.secE s)) r from rfl]
    rw [dset_not_mem acc _ (hdisj k (by simp [dkeys]))]
    rw [ihr _ hr ?_]
    · rw [dconcat_assoc]
      rfl
    · intro x hx
      rw [dkeys_dconcat]
      simp only [List.mem_append, dkeys_consE, dkeys]
      rintro (hc | hc)
      · exact hdisj x (by simp [dkeys, hx]) hc
      · simp at hc
        subst hc
        exact hk hx

theorem dapp_nil (d : Dict) (h : goodDict d = true) : dapp Dict.nil d = d := by
  rw [dapp_disjoint d Dict.nil h (by simp [dkeys])]
  rfl

theorem skipEmpty_cons_ne {t : Token} (h : t ≠ Token.string []) (ts : List Token) :
    skipEmpty (t :: ts) = t :: ts := by
  unfold skipEmpty
  rw [List.dropWhile_cons, if_neg (by simp [h])]

theorem parse_toks :
    ∀ (d : Dict), goodDict d = true → ∀ (acc : Dict) (rest : List Token) (fuel : Nat),
      (toks d ++ rest).length ≤ fuel →
      parseLoop fuel acc (toks d ++ rest) = parseLoop rest.length (dapp acc d) rest := by
  intro d
  induction d with
  | nil =>
    intro _ acc rest fuel hf
    simp only [toks, List.nil_append] at hf ⊢
    exact parseLoop_irrel fuel acc hf (le_refl _)
  | leafCons k v r ih =>
    intro h acc rest fuel hf
    obtain ⟨_, _, _, hv, hr⟩ := goodDict_leaf.1 h
    rw [show toks (Dict.leafCons k v r) ++ rest =
        Token.string k :: (Token.string v :: (toks r ++ rest)) from by simp [toks]] at hf ⊢
    cases fuel with
    | zero => exact absurd hf (by simp)
    | succ f =>
      rw [parseLoop_string]
      rw [skipEmpty_cons_ne (by simp [hv]) _]
      rw [show dapp acc (Dict.leafCons k v r) = dapp (dset acc k (Entry.leafE v)) r from rfl]
      exact ih hr _ rest f (by simp only [List.length_cons] at hf ⊢; omega)
  | secCons k s r ihs ihr =>
    intro h acc rest fuel hf
    obtain ⟨_, _, hs, hr⟩ := goodDict_sec.1 h
    rw [show toks (Dict.secCons k s r) ++ rest =
        Token.string k :: (Token.braceOpen ::
          (toks s ++ (Token.braceClose :: (toks r ++ rest)))) from by simp [toks]] at hf ⊢
    cases fuel with
    | zero => exact absurd hf (by simp)
    | succ f =>
      rw [parseLoop_string]
      rw [skipEmpty_cons_ne (by simp) _]
      simp only
      have hlen : (toks s ++ (Token.braceClose :: (toks r ++ rest))).length ≤ f := by
        simp only [List.length_cons, List.length_append] at hf ⊢
        omega
      rw [ihs hs Dict.nil (Token.braceClose :: (toks r ++ rest)) f hlen]
      rw [show (Token.braceClose :: (toks r ++ rest)).length
          = (toks r ++ rest).length + 1 from rfl]
      rw [parseLoop_close]
      rw [dapp_nil s hs]
      rw [show dapp acc (Dict.secCons k s r) = dapp (dset acc k (Entry.secE s)) r from rfl]
      exact ihr hr _ rest f (by simp only [List.length_cons, List.length_append] at hf ⊢; omega)

theorem goodDict_noQuote : ∀ (d : Dict), goodDict d = true → noQuoteDict d = true := by
  intro d
  induction d with
  | nil => intro _; rfl
  | leafCons k v r ih =>
    intro h
    obtain ⟨h1, _, h3, _, h5⟩ := goodDict_leaf.1 h
    simp [noQuoteDict, h1, h3, ih h5]
  | secCons k s r ihs ihr =>
    intro h
    obtain ⟨h1, _, h3, h5⟩ := goodDict_sec.1 h
    simp [noQuoteDict, h1, ihs h3, ihr h5]

theorem parse_write_roundtrip {d : Dict} (h : goodDict d = true) :
    parse_vdf (write_vdf d 0) = d := by
  unfold parse_vdf parse_tokens
  rw [tokenize_write_vdf (goodDict_noQuote d h) 0]
  have h2 := parse_toks d h Dict.nil [] (toks d).length (by simp)
  rw [List.append_nil] at h2
  rw [h2, show (List.length ([] : List Token)) = 0 from rfl, parseLoop_zero]
  exact dapp_nil d h

theorem noEmptyLeaf_dset : ∀ (d : Dict) (k : List Char) (e : Entry),
    noEmptyLeaf d = true →
    (match e with
     | Entry.leafE v => v ≠ []
     | Entry.secE s => noEmptyLeaf s = true) →
    noEmptyLeaf (dset d k e) = true := by
  intro d
  induction d with
  | nil =>
    intro k e _ he
    cases e with
    | leafE v => simpa [dset, consE, noEmptyLeaf] using he
    | secE s => simpa [dset, consE, noEmptyLeaf] using he
  | leafCons k' v r ih =>
    intro k e hd he
    simp only [noEmptyLeaf, Bool.and_eq_true] at hd
    by_cases hk : k' = k
    · subst hk
      cases e with
      | leafE w => simp only [dset, if_pos rfl, consE, noEmptyLeaf, Bool.and_eq_true]
                   exact ⟨by simpa using he, hd.2⟩
      | secE s => simp only [dset, if_pos rfl, consE, noEmptyLeaf, Bool.and_eq_true]
                  exact ⟨he, hd.2⟩
    · simp only [dset, if_neg hk, noEmptyLeaf, Bool.and_eq_true]
      exact ⟨hd.1, ih k e hd.2 he⟩
  | secCons k' s r ihs ihr =>
    intro k e hd he
    simp only [noEmptyLeaf, Bool.and_eq_true] at hd
    by_cases hk : k' = k
    · subst hk
      cases e with
      | leafE w => simp only [dset, if_pos rfl, consE, noEmptyLeaf, Bool.and_eq_true]
                   exact ⟨by simpa using he, hd.2⟩
      | secE s2 => simp only [dset, if_pos rfl, consE, noEmptyLeaf, Bool.and_eq_true]
                   exact ⟨he, hd.2⟩
    · simp only [dset, if_neg hk, noEmptyLeaf, Bool.and_eq_true]
      exact ⟨hd.1, ihr k e hd.2 he⟩

theorem parseLoop_noEmptyLeaf :
    ∀ (f : Nat) (acc : Dict) (ts : List Token), noEmptyLeaf acc = true →
      noEmptyLeaf (parseLoop f acc ts).1 = true := by
  intro f
  induction f with
  | zero => intro acc ts h; simpa [parseLoop_zero] using h
  | succ f ih =>
    intro acc ts h
    cases ts with
    | nil => simpa [parseLoop_nil] using h
    | cons t rest =>
      cases t with
      | string k =>
        rw [parseLoop_string]
        cases hse : skipEmpty rest with
        | nil => simpa using h
        | cons u rest2 =>
          cases u with
          | string v =>
            exact ih _ _ (noEmptyLeaf_dset acc k _ h (skipEmpty_head_ne hse))
          | braceOpen =>
            simp only
            exact ih _ _ (noEmptyLeaf_dset acc k _ h (ih Dict.nil rest2 rfl))
          | braceClose => simpa using h
      | braceOpen =>
        rw [parseLoop_open]
        exact ih acc rest h
      | braceClose =>
        rw [parseLoop_close]
        simpa using h

theorem parseLoop_no_close :
    ∀ (f : Nat) (acc : Dict) (ts : List Token), Token.braceClose ∉ ts → ts.length ≤ f →
      (parseLoop f acc ts).2 = [] := by
  intro f
  induction f with
  | zero => intro acc ts _ _; simp [parseLoop_zero]
  | succ f ih =>
    intro acc ts hmem hlen
    cases ts with
    | nil => simp [parseLoop_nil]
    | cons t rest =>
      have hrest : Token.braceClose ∉ rest := fun hm => hmem (by simp [hm])
      have hrlen : rest.length ≤ f := by simp only [List.length_cons] at hlen; omega
      cases t with
      | string k =>
        rw [parseLoop_string]
        have hsub : ∀ x ∈ skipEmpty rest, x ∈ rest := fun x hx =>
          (List.dropWhile_sublist _).subset hx
        have hskiplen := skipEmpty_length rest
        cases hse : skipEmpty rest with
        | nil => rfl
        | cons u rest2 =>
          have hr2 : Token.braceClose ∉ rest2 := by
            intro hm
            exact hrest (hsub _ (by rw [hse]; simp [hm]))
          have hr2len : rest2.length ≤ f := by
            rw [hse] at hskiplen
            simp only [List.length_cons] at hskiplen
            omega
          cases u with
          | string v => exact ih _ _ hr2 hr2len
          | braceOpen =>
            simp only
            rw [ih Dict.nil rest2 hr2 hr2len]
            simp [parseLoop_nil]
          | braceClose =>
            exact absurd (hsub _ (by rw [hse]; simp)) hrest
      | braceOpen =>
        rw [parseLoop_open]
        exact ih acc rest hrest hrlen
      | braceClose => exact absurd (by simp) hmem

/-! ## Navigator and mutator lemmas -/

theorem pathBlocked_none (f : Dict → Option (Dict × Option (List Char × Entry))) :
    ∀ (p : List (List Char)) (d : Dict),
      pathBlocked d p = true → ensure_apply f d p = none := by
  intro p
  induction p with
  | nil => intro d h; simp [pathBlocked] at h
  | cons k ks ih =>
    intro d h
    cases hg : dget? d k with
    | none => simp [pathBlocked, hg] at h
    | some e =>
      cases e with
      | leafE v => simp [ensure_apply, hg]
      | secE s =>
        simp only [pathBlocked, hg] at h
        simp [ensure_apply, hg, ih s h]

theorem sectionAt_ensuredTarget :
    ∀ (p : List (List Char)) (d t : Dict), sectionAt d p = some t → ensuredTarget d p = some t := by
  intro p
  induction p with
  | nil => intro d t h; simpa [sectionAt, ensuredTarget] using h
  | cons k ks ih =>
    intro d t h
    cases hg : dget? d k with
    | none => simp [sectionAt, hg] at h
    | some e =>
      cases e with
      | leafE v => simp [sectionAt, hg] at h
      | secE s =>
        simp only [sectionAt, hg] at h
        simp [ensuredTarget, hg, ih s t h]

theorem ensure_apply_some (f : Dict → Option (Dict × Option (List Char × Entry))) :
    ∀ (p : List (List Char)) (d t s' : Dict) (b : Option (List Char × Entry)),
      ensuredTarget d p = some t → f t = some (s', b) →
      ∃ d', ensure_apply f d p = some (d', b) ∧ sectionAt d' p = some s' := by
  intro p
  induction p with
  | nil =>
    intro d t s' b ht hf
    simp only [ensuredTarget, Option.some_inj] at ht
    subst ht
    exact ⟨s', by simpa [ensure_apply] using hf, by simp [sectionAt]⟩
  | cons k ks ih =>
    intro d t s' b ht hf
    cases hg : dget? d k with
    | none =>
      simp only [ensuredTarget, hg] at ht
      obtain ⟨d₁, h₁, h₂⟩ := ih Dict.nil t s' b ht hf
      refine ⟨dset d k (Entry.secE d₁), ?_, ?_⟩
      · simp [ensure_apply, hg, h₁]
      · simp [sectionAt, dget?_dset_self, h₂]
    | some e =>
      cases e with
      | leafE v => simp [ensuredTarget, hg] at ht
      | secE s =>
        simp only [ensuredTarget, hg] at ht
        obtain ⟨d₁, h₁, h₂⟩ := ih s t s' b ht hf
        refine ⟨dset d k (Entry.secE d₁), ?_, ?_⟩
        · simp [ensure_apply, hg, h₁]
        · simp [sectionAt, dget?_dset_self, h₂]

theorem ensure_apply_none (f : Dict → Option (Dict × Option (List Char × Entry))) :
    ∀ (p : List (List Char)) (d t : Dict),
      ensuredTarget d p = some t → f t = none → ensure_apply f d p = none := by
  intro p
  induction p with
  | nil =>
    intro d t ht hf
    simp only [ensuredTarget, Option.some_inj] at ht
    subst ht
    simpa [ensure_apply] using hf
  | cons k ks ih =>
    intro d t ht hf
    cases hg : dget? d k with
    | none =>
      simp only [ensuredTarget, hg] at ht
      simp [ensure_apply, hg, ih Dict.nil t ht hf]
    | some e =>
      cases e with
      | leafE v => simp [ensure_apply, hg]
      | secE s =>
        simp only [ensuredTarget, hg] at ht
        simp [ensure_apply, hg, ih s t ht hf]

theorem ensure_apply_inv (f : Dict → Option (Dict × Option (List Char × Entry))) :
    ∀ (p : List (List Char)) (d d' : Dict) (b : Option (List Char × Entry)),
      ensure_apply f d p = some (d', b) →
      ∃ t s', ensuredTarget d p = some t ∧ f t = some (s', b) ∧ sectionAt d' p = some s' := by
  intro p
  induction p with
  | nil =>
    intro d d' b h
    simp only [ensure_apply] at h
    exact ⟨d, d', by simp [ensuredTarget], h, by simp [sectionAt]⟩
  | cons k ks ih =>
    intro d d' b h
    cases hg : dget? d k with
    | none =>
      simp only [ensure_apply, hg] at h
      cases hin : ensure_apply f Dict.nil ks with
      | none => rw [hin] at h; simp at h
      | some r =>
        obtain ⟨s₁, b₁⟩ := r
        rw [hin] at h
        simp only [Option.some_inj, Prod.mk.injEq] at h
        obtain ⟨hd', hb⟩ := h
        subst hb
        obtain ⟨t, s', h₁, h₂, h₃⟩ := ih Dict.nil s₁ b₁ hin
        refine ⟨t, s', by simp [ensuredTarget, hg, h₁], h₂, ?_⟩
        rw [← hd']
        simp [sectionAt, dget?_dset_self, h₃]
    | some e =>
      cases e with
      | leafE v => simp [ensure_apply, hg] at h
      | secE s =>
        simp only [ensure_apply, hg] at h
        cases hin : ensure_apply f s ks with
        | none => rw [hin] at h; simp at h
        | some r =>
          obtain ⟨s₁, b₁⟩ := r
          rw [hin] at h
          simp only [Option.some_inj, Prod.mk.injEq] at h
          obtain ⟨hd', hb⟩ := h
          subst hb
          obtain ⟨t, s', h₁, h₂, h₃⟩ := ih s s₁ b₁ hin
          refine ⟨t, s', by simp [ensuredTarget, hg, h₁], h₂, ?_⟩
          rw [← hd']
          simp [sectionAt, dget?_dset_self, h₃]

theorem goodDict_dget_sec : ∀ (d : Dict) {k : List Char} {s : Dict},
    goodDict d = true → dget? d k = some (Entry.secE s) → goodDict s = true := by
  intro d
  induction d with
  | nil => intro k s _ hg; simp [dget?] at hg
  | leafCons k' v r ih =>
    intro k s h hg
    obtain ⟨_, _, _, _, hr⟩ := goodDict_leaf.1 h
    by_cases hk : k' = k
    · rw [dget?, if_pos hk] at hg; simp at hg
    · rw [dget?, if_neg hk] at hg
      exact ih hr hg
  | secCons k' s' r ihs ihr =>
    intro k s h hg
    obtain ⟨_, _, hs, hr⟩ := goodDict_sec.1 h
    by_cases hk : k' = k
    · rw [dget?, if_pos hk] at hg
      simp only [Option.some_inj, Entry.secE.injEq] at hg
      exact hg ▸ hs
    · rw [dget?, if_neg hk] at hg
      exact ihr hr hg

theorem mem_dkeys_dset : ∀ (d : Dict) (k : List Char) (e : Entry) (x : List Char),
    x ∈ dkeys (dset d k e) → x ∈ dkeys d ∨ x = k := by
  intro d
  induction d with
  | nil =>
    intro k e x hx
    cases e <;> simp [dset, consE, dkeys] at hx <;> exact Or.inr hx
  | leafCons k' v r ih =>
    intro k e x hx
    by_cases hk : k' = k
    · subst hk
      cases e <;> simp only [dset, if_pos rfl, consE, dkeys, List.mem_cons] at hx <;>
        rcases hx with hx | hx
      · exact Or.inl (by simp [dkeys, hx])
      · exact Or.inl (by simp [dkeys, hx])
      · exact Or.inl (by simp [dkeys, hx])
      · exact Or.inl (by simp [dkeys, hx])
    · simp only [dset, if_neg hk, dkeys, List.mem_cons] at hx
      rcases hx with hx | hx
      · exact Or.inl (by simp [dkeys, hx])
      · rcases ih k e x hx with hm | hm
        · exact Or.inl (by simp [dkeys, hm])
        · exact Or.inr hm
  | secCons k' s r ihs ihr =>
    intro k e x hx
    by_cases hk : k' = k
    · subst hk
      cases e <;> simp only [dset, if_pos rfl, consE, dkeys, List.mem_cons] at hx <;>
        rcases hx with hx | hx
      · exact Or.inl (by simp [dkeys, hx])
      · exact Or.inl (by simp [dkeys, hx])
      · exact Or.inl (by simp [dkeys, hx])
      · exact Or.inl (by simp [dkeys, hx])
    · simp only [dset, if_neg hk, dkeys, List.mem_cons] at hx
      rcases hx with hx | hx
      · exact Or.inl (by simp [dkeys, hx])
      · rcases ihr k e x hx with hm | hm
        · exact Or.inl (by simp [dkeys, hm])
        · exact Or.inr hm

theorem goodDict_dset : ∀ (d : Dict) (k : List Char) (e : Entry),
    goodDict d = true → noQuote k = true →
    (match e with
     | Entry.leafE v => noQuote v = true ∧ v ≠ []
     | Entry.secE s => goodDict s = true) →
    goodDict (dset d k e) = true := by
  intro d
  induction d with
  | nil =>
    intro k e _ hk he
    cases e with
    | leafE v => exact goodDict_leaf.2 ⟨hk, by simp [dkeys], he.1, he.2, rfl⟩
    | secE s => exact goodDict_sec.2 ⟨hk, by simp [dkeys], he, rfl⟩
  | leafCons k' v r ih =>
    intro k e h hk he
    obtain ⟨h1, h2, h3, h4, h5⟩ := goodDict_leaf.1 h
    by_cases hkk : k' = k
    · subst hkk
      cases e with
      | leafE w => exact (by simp [dset, consE]; exact goodDict_leaf.2 ⟨h1, h2, he.1, he.2, h5⟩)
      | secE s => exact (by simp [dset, consE]; exact goodDict_sec.2 ⟨h1, h2, he, h5⟩)
    · rw [dset, if_neg hkk]
      refine goodDict_leaf.2 ⟨h1, ?_, h3, h4, ih k e h5 hk he⟩
      intro hm
      rcases mem_dkeys_dset r k e k' hm with hm' | hm'
      · exact h2 hm'
      · exact hkk hm'
  | secCons k' s r ihs ihr =>
    intro k e h hk he
    obtain ⟨h1, h2, h3, h5⟩ := goodDict_sec.1 h
    by_cases hkk : k' = k
    · subst hkk
      cases e with
      | leafE w => exact (by simp [dset, consE]; exact goodDict_leaf.2 ⟨h1, h2, he.1, he.2, h5⟩)
      | secE s2 => exact (by simp [dset, consE]; exact goodDict_sec.2 ⟨h1, h2, he, h5⟩)
    · rw [dset, if_neg hkk]
      refine goodDict_sec.2 ⟨h1, ?_, h3, ihr k e h5 hk he⟩
      intro hm
      rcases mem_dkeys_dset r k e k' hm with hm' | hm'
      · exact h2 hm'
      · exact hkk hm'

theorem ensure_apply_good (f : Dict → Option (Dict × Option (List Char × Entry)))
    (hf : ∀ (t s' : Dict) (b' : Option (List Char × Entry)),
      goodDict t = true → f t = some (s', b') → goodDict s' = true) :
    ∀ (p : List (List Char)) (d d' : Dict) (b : Option (List Char × Entry)),
      goodDict d = true → (∀ k ∈ p, noQuote k = true) →
      ensure_apply f d p = some (d', b) → goodDict d' = true := by
  intro p
  induction p with
  | nil =>
    intro d d' b hd _ h
    simp only [ensure_apply] at h
    exact hf d d' b hd h
  | cons k ks ih =>
    intro d d' b hd hks h
    have hk : noQuote k = true := hks k (by simp)
    have hks' : ∀ x ∈ ks, noQuote x = true := fun x hx => hks x (by simp [hx])
    cases hg : dget? d k with
    | none =>
      simp only [ensure_apply, hg] at h
      cases hin : ensure_apply f Dict.nil ks with
      | none => rw [hin] at h; simp at h
      | some r =>
        obtain ⟨s₁, b₁⟩ := r
        rw [hin] at h
        simp only [Option.some_inj, Prod.mk.injEq] at h
        obtain ⟨hd', _⟩ := h
        rw [← hd']
        exact goodDict_dset d k _ hd hk (ih Dict.nil s₁ b₁ rfl hks' hin)
    | some e =>
      cases e with
      | leafE v => simp [ensure_apply, hg] at h
      | secE s =>
        simp only [ensure_apply, hg] at h
        cases hin : ensure_apply f s ks with
        | none => rw [hin] at h; simp at h
        | some r =>
          obtain ⟨s₁, b₁⟩ := r
          rw [hin] at h
          simp only [Option.some_inj, Prod.mk.injEq] at h
          obtain ⟨hd', _⟩ := h
          rw [← hd']
          exact goodDict_dset d k _ hd hk
            (ih s s₁ b₁ (goodDict_dget_sec d hd hg) hks' hin)

theorem ensure_from_nil (f : Dict → Option (Dict × Option (List Char × Entry))) :
    ∀ (q : List (List Char)) (x : List Char) (d' : Dict) (b : Option (List Char × Entry)),
      ensure_apply f Dict.nil (q ++ [x]) = some (d', b) →
      ∀ y, y ≠ x → sectionAt d' (q ++ [y]) = none := by
  intro q
  induction q with
  | nil =>
    intro x d' b h y hy
    simp only [List.nil_append] at h ⊢
    cases hg : dget? Dict.nil x with
    | none =>
      simp only [ensure_apply, hg] at h
      cases hin : f Dict.nil with
      | none => rw [hin] at h; simp at h
      | some r =>
        obtain ⟨s₁, b₁⟩ := r
        rw [hin] at h
        simp only [Option.some_inj, Prod.mk.injEq] at h
        obtain ⟨hd', _⟩ := h
        rw [← hd']
        rw [show sectionAt (dset Dict.nil x (Entry.secE s₁)) [y] =
            (match dget? (dset Dict.nil x (Entry.secE s₁)) y with
             | some (Entry.secE s) => sectionAt s []
             | _ => none) from rfl]
        rw [dget?_dset_ne _ _ hy]
        simp [dget?]
    | some e => simp [dget?] at hg
  | cons k q ih =>
    intro x d' b h y hy
    simp only [List.cons_append] at h ⊢
    have hg : dget? Dict.nil k = none := rfl
    simp only [ensure_apply, hg] at h
    cases hin : ensure_apply f Dict.nil (q ++ [x]) with
    | none => rw [hin] at h; simp at h
    | some r =>
      obtain ⟨s₁, b₁⟩ := r
      rw [hin] at h
      simp only [Option.some_inj, Prod.mk.injEq] at h
      obtain ⟨hd', _⟩ := h
      rw [← hd']
      rw [show sectionAt (dset Dict.nil k (Entry.secE s₁)) (k :: (q ++ [y])) =
          (match dget? (dset Dict.nil k (Entry.secE s₁)) k with
           | some (Entry.secE s) => sectionAt s (q ++ [y])
           | _ => none) from rfl]
      rw [dget?_dset_self]
      exact ih x s₁ b₁ hin y hy

theorem ensure_last_preserve (f : Dict → Option (Dict × Option (List Char × Entry))) :
    ∀ (q : List (List Char)) (d : Dict) (x : List Char) (d' : Dict)
      (b : Option (List Char × Entry)),
      ensure_apply f d (q ++ [x]) = some (d', b) →
      ∀ y, y ≠ x → sectionAt d' (q ++ [y]) = sectionAt d (q ++ [y]) := by
  intro q
  induction q with
  | nil =>
    intro d x d' b h y hy
    simp only [List.nil_append] at h ⊢
    have hsec : ∀ (dd : Dict), sectionAt dd [y] =
        (match dget? dd y with
         | some (Entry.secE s) => some s
         | _ => none) := by
      intro dd
      rw [show sectionAt dd [y] =
          (match dget? dd y with
           | some (Entry.secE s) => sectionAt s []
           | _ => none) from rfl]
      cases dget? dd y with
      | none => rfl
      | some e => cases e <;> rfl
    cases hg : dget? d x with
    | none =>
      simp only [ensure_apply, hg] at h
      cases hin : f Dict.nil with
      | none => rw [hin] at h; simp at h
      | some r =>
        obtain ⟨s₁, b₁⟩ := r
        rw [hin] at h
        simp only [Option.some_inj, Prod.mk.injEq] at h
        obtain ⟨hd', _⟩ := h
        rw [← hd', hsec, hsec, dget?_dset_ne _ _ hy]
    | some e =>
      cases e with
      | leafE v => simp [ensure_apply, hg] at h
      | secE s =>
        simp only [ensure_apply, hg] at h
        cases hin : f s with
        | none => rw [hin] at h; simp at h
        | some r =>
          obtain ⟨s₁, b₁⟩ := r
          rw [hin] at h
          simp only [Option.some_inj, Prod.mk.injEq] at h
          obtain ⟨hd', _⟩ := h
          rw [← hd', hsec, hsec, dget?_dset_ne _ _ hy]
  | cons k q ih =>
    intro d x d' b h y hy
    simp only [List.cons_append] at h ⊢
    have hsec : ∀ (dd : Dict), sectionAt dd (k :: (q ++ [y])) =
        (match dget? dd k with
         | some (Entry.secE s) => sectionAt s (q ++ [y])
         | _ => none) := fun dd => rfl
    cases hg : dget? d k with
    | none =>
      simp only [ensure_apply, hg] at h
      cases hin : ensure_apply f Dict.nil (q ++ [x]) with
      | none => rw [hin] at h; simp at h
      | some r =>
        obtain ⟨s₁, b₁⟩ := r
        rw [hin] at h
        simp only [Option.some_inj, Prod.mk.injEq] at h
        obtain ⟨hd', _⟩ := h
        rw [← hd', hsec, hsec, dget?_dset_self, hg]
        exact ensure_from_nil f q x s₁ b₁ hin y hy
    | some e =>
      cases e with
      | leafE v => simp [ensure_apply, hg] at h
      | secE s =>
        simp only [ensure_apply, hg] at h
        cases hin : ensure_apply f s (q ++ [x]) with
        | none => rw [hin] at h; simp at h
        | some r =>
          obtain ⟨s₁, b₁⟩ := r
          rw [hin] at h
          simp only [Option.some_inj, Prod.mk.injEq] at h
          obtain ⟨hd', _⟩ := h
          rw [← hd', hsec, hsec, dget?_dset_self, hg]
          exact ih s x s₁ b₁ hin y hy

theorem app_update_unchanged {a v : List Char} {ask : Bool} {resp : List Char} {s : Dict}
    (h : dget? s lkey = some (Entry.leafE v)) : app_update a v ask resp s = none := by
  simp [app_update, h]

theorem app_update_absent {a v : List Char} {ask : Bool} {resp : List Char} {s : Dict}
    (h : dget? s lkey = none) :
    app_update a v ask resp s = some (dset s lkey (Entry.leafE v), none) := by
  simp [app_update, h]

theorem app_update_some {a v : List Char} {ask : Bool} {resp : List Char} {s s' : Dict}
    {b : Option (List Char × Entry)}
    (h : app_update a v ask resp s = some (s', b)) :
    s' = dset s lkey (Entry.leafE v) := by
  cases hg : dget? s lkey with
  | none =>
    simp only [app_update, hg, Option.some_inj, Prod.mk.injEq] at h
    exact h.1.symm
  | some cur =>
    simp only [app_update, hg] at h
    by_cases hc : cur = Entry.leafE v
    · rw [if_pos hc] at h; simp at h
    · rw [if_neg hc] at h
      split at h
      · simp at h
      · split at h
        · simp at h
        · simp only [Option.some_inj, Prod.mk.injEq] at h
          exact h.1.symm

theorem app_update_decline {a v : List Char} {resp : List Char} {s : Dict} {cur : Entry}
    (hg : dget? s lkey = some cur) (hne : cur ≠ Entry.leafE v)
    (hresp : resp ≠ "y".toList) :
    app_update a v true resp s = none := by
  simp only [app_update, hg]
  rw [if_neg hne]
  by_cases h2 : resp = "skip".toList ∨ resp = "n".toList
  · rw [if_pos ⟨trivial, h2⟩]
  · rw [if_neg (fun hc => h2 hc.2), if_pos ⟨trivial, hresp⟩]

theorem app_update_approve {a v : List Char} {s : Dict} {cur : Entry}
    (hg : dget? s lkey = some cur) (hne : cur ≠ Entry.leafE v) :
    app_update a v true "y".toList s =
      some (dset s lkey (Entry.leafE v), some (a, cur)) := by
  simp only [app_update, hg]
  rw [if_neg hne, if_neg (by decide), if_neg (by decide)]

theorem app_update_always {a v : List Char} {s : Dict} {cur : Entry} (resp : List Char)
    (hg : dget? s lkey = some cur) (hne : cur ≠ Entry.leafE v) :
    app_update a v false resp s =
      some (dset s lkey (Entry.leafE v), some (a, cur)) := by
  simp only [app_update, hg]
  rw [if_neg hne, if_neg (by simp), if_neg (by simp)]

theorem app_update_no_ask (a v r r' : List Char) :
    app_update a v false r = app_update a v false r' := by
  funext s
  cases hg : dget? s lkey with
  | none => simp [app_update, hg]
  | some cur =>
    simp only [app_update, hg]
    by_cases hc : cur = Entry.leafE v
    · rw [if_pos hc, if_pos hc]
    · rw [if_neg hc, if_neg hc, if_neg (by simp), if_neg (by simp),
        if_neg (by simp), if_neg (by simp)]

theorem app_update_good (a v : List Char) (ask : Bool) (resp : List Char)
    (hv : noQuote v = true) (hvne : v ≠ []) :
    ∀ (t s' : Dict) (b' : Option (List Char × Entry)),
      goodDict t = true → app_update a v ask resp t = some (s', b') →
      goodDict s' = true := by
  intro t s' b' ht h
  rw [app_update_some h]
  exact goodDict_dset t lkey _ ht (by decide) ⟨hv, hvne⟩

theorem modify_blocked {app_id opts content : List Char} {ask : Bool} {resp : List Char}
    (h : pathBlocked (parse_vdf content) (steam_path_keys app_id) = true) :
    modify_launch_options app_id opts content ask resp = (false, content, none) := by
  unfold modify_launch_options
  rw [pathBlocked_none _ _ _ h]

theorem modify_unchanged {app_id v content : List Char} {ask : Bool} {resp : List Char}
    {s : Dict}
    (hs : sectionAt (parse_vdf content) (steam_path_keys app_id) = some s)
    (hv : dget? s lkey = some (Entry.leafE v)) :
    modify_launch_options app_id v content ask resp = (false, content, none) := by
  unfold modify_launch_options
  rw [ensure_apply_none _ _ _ _ (sectionAt_ensuredTarget _ _ _ hs) (app_update_unchanged hv)]

theorem steam_path_keys_decomp (a : List Char) :
    steam_path_keys a =
      ["Software".toList, "Valve".toList, "Steam".toList, "apps".toList] ++ [a] := rfl

theorem steam_path_keys_noQuote {a : List Char} (ha : noQuote a = true) :
    ∀ k ∈ steam_path_keys a, noQuote k = true := by
  intro k hk
  simp only [steam_path_keys, List.mem_cons, List.not_mem_nil, or_false] at hk
  rcases hk with rfl | rfl | rfl | rfl | rfl <;> first | decide | exact ha

theorem modify_success_state {app_id v : List Char} {d d' : Dict} {ask : Bool}
    {resp : List Char} {b : Option (List Char × Entry)}
    (hd : goodDict d = true) (ha : noQuote app_id = true) (hv : noQuote v = true)
    (hvne : v ≠ [])
    (h : ensure_apply (app_update app_id v ask resp) d (steam_path_keys app_id)
        = some (d', b)) :
    goodDict d' = true ∧
    ∃ s', sectionAt d' (steam_path_keys app_id) = some s' ∧
      dget? s' lkey = some (Entry.leafE v) := by
  constructor
  · exact ensure_apply_good _ (app_update_good app_id v ask resp hv hvne) _ d d' b hd
      (steam_path_keys_noQuote ha) h
  · obtain ⟨t, s', h₁, h₂, h₃⟩ := ensure_apply_inv _ _ d d' b h
    refine ⟨s', h₃, ?_⟩
    rw [app_update_some h₂]
    exact dget?_dset_self t lkey _

theorem modify_idempotent {d : Dict} {app_id v : List Char} (resp1 resp2 : List Char)
    (hd : goodDict d = true) (ha : noQuote app_id = true) (hv : noQuote v = true)
    (hvne : v ≠ []) :
    modify_launch_options app_id v
        (modify_launch_options app_id v (write_vdf d 0) false resp1).2.1 false resp2 =
      (false, (modify_launch_options app_id v (write_vdf d 0) false resp1).2.1, none) := by
  have hparse : parse_vdf (write_vdf d 0) = d := parse_write_roundtrip hd
  cases h1 : ensure_apply (app_update app_id v false resp1) d (steam_path_keys app_id) with
  | none =>
    have hm1 : modify_launch_options app_id v (write_vdf d 0) false resp1 =
        (false, write_vdf d 0, none) := by
      unfold modify_launch_options
      rw [hparse, h1]
    rw [hm1]
    show modify_launch_options app_id v (write_vdf d 0) false resp2 = _
    unfold modify_launch_options
    rw [hparse, app_update_no_ask app_id v resp2 resp1, h1]
  | some r =>
    obtain ⟨d₁, b₁⟩ := r
    have hm1 : modify_launch_options app_id v (write_vdf d 0) false resp1 =
        (true, write_vdf d₁ 0, b₁) := by
      unfold modify_launch_options
      rw [hparse, h1]
    obtain ⟨hg₁, s', hs', hl'⟩ := modify_success_state hd ha hv hvne h1
    rw [hm1]
    show modify_launch_options app_id v (write_vdf d₁ 0) false resp2 = _
    have hparse1 : parse_vdf (write_vdf d₁ 0) = d₁ := parse_write_roundtrip hg₁
    exact modify_unchanged (by rw [hparse1]; exact hs') hl'

theorem batch_total (template : List Char) (resp : List Char → List Char) :
    ∀ (ids : List (List Char)) (content : List Char),
      (modify_all_loop template resp ids content).1 +
        (modify_all_loop template resp ids content).2.1 = ids.length := by
  intro ids
  induction ids with
  | nil => intro content; rfl
  | cons id rest ih =>
    intro content
    simp only [modify_all_loop]
    have := ih (modify_launch_options id template content true (resp id)).2.1
    by_cases hr : (modify_launch_options id template content true (resp id)).1 = true
    · simp only [hr, if_pos]
      simp only [List.length_cons]
      omega
    · rw [if_neg (by simpa using hr)]
      simp only [List.length_cons]
      omega

theorem modify_all_loop_cons_true {template id : List Char} (resp : List Char → List Char)
    (rest : List (List Char)) {content c' : List Char} {b : Option (List Char × Entry)}
    (hm : modify_launch_options id template content true (resp id) = (true, c', b)) :
    modify_all_loop template resp (id :: rest) content =
      ((modify_all_loop template resp rest c').1 + 1,
       (modify_all_loop template resp rest c').2.1,
       (modify_all_loop template resp rest c').2.2) := by
  simp [modify_all_loop, hm]

theorem modify_all_loop_cons_false {template id : List Char} (resp : List Char → List Char)
    (rest : List (List Char)) {content c' : List Char} {b : Option (List Char × Entry)}
    (hm : modify_launch_options id template content true (resp id) = (false, c', b)) :
    modify_all_loop template resp (id :: rest) content =
      ((modify_all_loop template resp rest c').1,
       (modify_all_loop template resp rest c').2.1 + 1,
       (modify_all_loop template resp rest c').2.2) := by
  simp [modify_all_loop, hm]

theorem batch_counts {template : List Char} (resp : List Char → List Char) :
    ∀ (ids : List (List Char)) (d : Dict),
      goodDict d = true → noQuote template = true → template ≠ [] →
      ids.Nodup →
      (∀ i ∈ ids, noQuote i = true ∧ hasOtherValue d i template = true) →
      (modify_all_loop template resp ids (write_vdf d 0)).1 =
        (ids.filter (fun i => decide (resp i = "y".toList))).length ∧
      (modify_all_loop template resp ids (write_vdf d 0)).2.1 =
        (ids.filter (fun i => !decide (resp i = "y".toList))).length := by
  intro ids
  induction ids with
  | nil => intro d _ _ _ _ _; simp [modify_all_loop]
  | cons id rest ih =>
    intro d hd ht htne hnodup hall
    obtain ⟨hidq, hidother⟩ := hall id (by simp)
    have hparse : parse_vdf (write_vdf d 0) = d := parse_write_roundtrip hd
    unfold hasOtherValue at hidother
    cases hsec : sectionAt d (steam_path_keys id) with
    | none => rw [hsec] at hidother; simp at hidother
    | some s =>
      simp only [hsec] at hidother
      cases hget : dget? s lkey with
      | none => simp only [hget] at hidother; simp at hidother
      | some cur =>
        simp only [hget] at hidother
        cases cur with
        | secE s2 => simp at hidother
        | leafE w =>
          have hw : w ≠ template := by simpa using hidother
          have hcur_ne : Entry.leafE w ≠ Entry.leafE template := by simp [hw]
          have htgt : ensuredTarget d (steam_path_keys id) = some s :=
            sectionAt_ensuredTarget _ _ _ hsec
          have hfilt1 : (List.filter (fun i => decide (resp i = "y".toList)) (id :: rest))
              = if resp id = "y".toList
                then id :: List.filter (fun i => decide (resp i = "y".toList)) rest
                else List.filter (fun i => decide (resp i = "y".toList)) rest := by
            rw [List.filter_cons]
            by_cases hr : resp id = "y".toList <;> simp [hr]
          have hfilt2 : (List.filter (fun i => !decide (resp i = "y".toList)) (id :: rest))
              = if resp id = "y".toList
                then List.filter (fun i => !decide (resp i = "y".toList)) rest
                else id :: List.filter (fun i => !decide (resp i = "y".toList)) rest := by
            rw [List.filter_cons]
            by_cases hr : resp id = "y".toList <;> simp [hr]
          by_cases hresp : resp id = "y".toList
          · obtain ⟨d₁, he, hsec₁⟩ := ensure_apply_some
              (app_update id template true "y".toList) (steam_path_keys id) d s _ _
              htgt (app_update_approve hget hcur_ne)
            have hm : modify_launch_options id template (write_vdf d 0) true (resp id) =
                (true, write_vdf d₁ 0, some (id, Entry.leafE w)) := by
              unfold modify_launch_options
              rw [hparse, hresp, he]
            have hg₁ : goodDict d₁ = true :=
              ensure_apply_good _ (app_update_good id template true "y".toList ht htne)
                _ d d₁ _ hd (steam_path_keys_noQuote hidq) he
            rw [steam_path_keys_decomp id] at he
            have hpres : ∀ i ∈ rest, noQuote i = true ∧ hasOtherValue d₁ i template = true := by
              intro i hi
              obtain ⟨hq, ho⟩ := hall i (by simp [hi])
              refine ⟨hq, ?_⟩
              have hne : i ≠ id := by
                intro he'
                exact (List.nodup_cons.1 hnodup).1 (he' ▸ hi)
              have hpre := ensure_last_preserve _ _ d id d₁ _ he i hne
              unfold hasOtherValue at ho ⊢
              rw [steam_path_keys_decomp i, hpre, ← steam_path_keys_decomp i]
              exact ho
            have step := ih d₁ hg₁ ht htne (List.nodup_cons.1 hnodup).2 hpres
            rw [modify_all_loop_cons_true resp rest hm, hfilt1, hfilt2,
              if_pos hresp, if_pos hresp]
            exact ⟨by rw [step.1]; simp, step.2⟩
          · have hnone := ensure_apply_none
              (app_update id template true (resp id)) (steam_path_keys id) d s htgt
              (app_update_decline hget hcur_ne hresp)
            have hm : modify_launch_options id template (write_vdf d 0) true (resp id) =
                (false, write_vdf d 0, none) := by
              unfold modify_launch_options
              rw [hparse, hnone]
            have step := ih d hd ht htne (List.nodup_cons.1 hnodup).2
              (fun i hi => hall i (by simp [hi]))
            rw [modify_all_loop_cons_false resp rest hm, hfilt1, hfilt2,
              if_neg hresp, if_neg hresp]
            exact ⟨step.1, by rw [step.2]; simp⟩

theorem nestTokens_length : ∀ n, (nestTokens n).length = 2 * n := by
  intro n
  induction n with
  | zero => rfl
  | succ n ih => simp [nestTokens, ih]; omega

theorem parseLoop_nest : ∀ (n f : Nat) (acc : Dict), 2 * n + 2 ≤ f →
    parseLoop f acc (nestTokens (n+1)) = (dset acc ['a'] (Entry.secE (nestedDict n)), []) := by
  intro n
  induction n with
  | zero =>
    intro f acc hf
    cases f with
    | zero => omega
    | succ f' =>
      rw [show nestTokens 1 = [Token.string ['a'], Token.braceOpen] from rfl]
      rw [parseLoop_string, skipEmpty_cons_ne (by simp) _]
      simp only [parseLoop_nil]
      rfl
  | succ n ihn =>
    intro f acc hf
    cases f with
    | zero => omega
    | succ f' =>
      rw [show nestTokens (n+1+1) = Token.string ['a'] :: Token.braceOpen :: nestTokens (n+1)
          from rfl]
      rw [parseLoop_string, skipEmpty_cons_ne (by simp) _]
      simp only [ihn f' Dict.nil (by omega), parseLoop_nil]
      rfl

theorem parse_tokens_nest : ∀ n, (parse_tokens (nestTokens n)).1 = nestedDict n := by
  intro n
  cases n with
  | zero => rfl
  | succ n =>
    unfold parse_tokens
    rw [parseLoop_nest n (nestTokens (n+1)).length Dict.nil
      (by rw [nestTokens_length]; omega)]
    rfl

/-! ## Claim theorems -/

/-- C1, counterexample: the tree `{"k": ""}` has no quote character in any
key or value, yet `parse_vdf (write_vdf T)` is the empty tree, not `T`: the
serialized empty value `""` is consumed by the parser's tab-skipping loop
and the entry is dropped. -/
theorem c1_roundtrip_counterexample :
    noQuoteDict (Dict.leafCons ['k'] [] Dict.nil) = true ∧
    parse_vdf (write_vdf (Dict.leafCons ['k'] [] Dict.nil) 0) = Dict.nil ∧
    parse_vdf (write_vdf (Dict.leafCons ['k'] [] Dict.nil) 0) ≠
      Dict.leafCons ['k'] [] Dict.nil := by
  refine ⟨by decide, by decide, by decide⟩

/-- C1, amended: for every tree whose keys are distinct within each section
and quote-free, and whose leaf values are quote-free and additionally
non-empty, parsing the serialized text yields a tree structurally identical
to the original (same keys, same leaf values, same nesting, same child
order). -/
theorem c1_roundtrip {d : Dict} (h : goodDict d = true) :
    parse_vdf (write_vdf d 0) = d :=
  parse_write_roundtrip h

/-- C1 witness: the round trip applied to a concrete well-formed tree. -/
theorem c1_roundtrip_witness :
    goodDict (Dict.secCons "A".toList
      (Dict.leafCons "B".toList "1".toList Dict.nil) Dict.nil) = true ∧
    parse_vdf (write_vdf (Dict.secCons "A".toList
      (Dict.leafCons "B".toList "1".toList Dict.nil) Dict.nil) 0) =
      Dict.secCons "A".toList (Dict.leafCons "B".toList "1".toList Dict.nil) Dict.nil :=
  ⟨by decide, c1_roundtrip (by decide)⟩

/-- C2: structural protection of ensure-path.  First part: when any segment
of `Software/Valve/Steam/apps/<app_id>` exists as a leaf where a section is
required, `modify_launch_options` returns `False`, the file content is
returned unchanged (no write), and no backup row is appended.  Second part:
when the walk does not hit a leaf and the key is absent at the ensured
target, the ensure-path succeeds, creating missing intermediate segments as
empty sections — afterwards the whole path exists as sections and the
target holds the new leaf — and no backup is appended. -/
theorem c2_ensure_path :
    (∀ (app_id opts content : List Char) (ask : Bool) (resp : List Char),
      pathBlocked (parse_vdf content) (steam_path_keys app_id) = true →
      modify_launch_options app_id opts content ask resp = (false, content, none)) ∧
    (∀ (app_id opts : List Char) (ask : Bool) (resp : List Char) (d t : Dict),
      ensuredTarget d (steam_path_keys app_id) = some t → dget? t lkey = none →
      ∃ d', ensure_apply (app_update app_id opts ask resp) d (steam_path_keys app_id)
          = some (d', none) ∧
        sectionAt d' (steam_path_keys app_id) = some (dset t lkey (Entry.leafE opts))) := by
  constructor
  · intro app_id opts content ask resp h
    exact modify_blocked h
  · intro app_id opts ask resp d t ht hget
    exact ensure_apply_some _ _ d t _ _ ht (app_update_absent hget)

/-- C2 witness: a file whose `Software` key holds a string is rejected
without a write, and ensure-path from an empty tree creates the whole
path. -/
theorem c2_ensure_path_witness :
    modify_launch_options ['1'] ['x']
        (write_vdf (Dict.leafCons "Software".toList ['x'] Dict.nil) 0) false [] =
      (false, write_vdf (Dict.leafCons "Software".toList ['x'] Dict.nil) 0, none) ∧
    (∃ d', ensure_apply (app_update ['1'] ['x'] false []) Dict.nil
          (steam_path_keys ['1']) = some (d', none) ∧
      sectionAt d' (steam_path_keys ['1']) =
        some (dset Dict.nil lkey (Entry.leafE ['x']))) :=
  ⟨c2_ensure_path.1 ['1'] ['x'] _ false [] (by decide),
   c2_ensure_path.2 ['1'] ['x'] false [] Dict.nil Dict.nil (by decide) (by decide)⟩

/-- C3, counterexample: with the value `a"b` (which contains a quote), two
successive AlwaysReplace calls starting from an empty file both report a
modification and the second call appends a backup row `("1", "a")` — the
claim promises the second call reports Unchanged and appends no backup
row.  (The first call appends none; the corruption comes from serializing
the unescaped quote.) -/
theorem c3_idempotence_counterexample :
    (modify_launch_options ['1'] ['a', '"', 'b'] [] false []).2.2 = none ∧
    (modify_launch_options ['1'] ['a', '"', 'b']
        (modify_launch_options ['1'] ['a', '"', 'b'] [] false []).2.1 false []).1 = true ∧
    (modify_launch_options ['1'] ['a', '"', 'b']
        (modify_launch_options ['1'] ['a', '"', 'b'] [] false []).2.1 false []).2.2 =
      some (['1'], Entry.leafE ['a']) := by
  refine ⟨by decide, by decide, by decide⟩

/-- C3, amended: first part (unconditional): if `LaunchOptions` is already
present at the app's section with a value equal to the requested one, the
call reports `False` (Unchanged), performs no file write and appends no
backup row.  Second part: when the starting content serializes a
well-formed tree and the app id and value are quote-free with the value
non-empty, two successive AlwaysReplace calls leave the file exactly as
after the first call, and the second call reports Unchanged with no write
and no backup row. -/
theorem c3_unchanged_idempotent :
    (∀ (app_id v content : List Char) (ask : Bool) (resp : List Char) (s : Dict),
      sectionAt (parse_vdf content) (steam_path_keys app_id) = some s →
      dget? s lkey = some (Entry.leafE v) →
      modify_launch_options app_id v content ask resp = (false, content, none)) ∧
    (∀ (d : Dict) (app_id v resp1 resp2 : List Char),
      goodDict d = true → noQuote app_id = true → noQuote v = true → v ≠ [] →
      modify_launch_options app_id v
          (modify_launch_options app_id v (write_vdf d 0) false resp1).2.1 false resp2 =
        (false,
         (modify_launch_options app_id v (write_vdf d 0) false resp1).2.1, none)) :=
  ⟨fun _ _ _ _ _ _ hs hv => modify_unchanged hs hv,
   fun _ _ _ r1 r2 hd ha hv hvne => modify_idempotent r1 r2 hd ha hv hvne⟩

/-- C3 witness: both parts applied at concrete inputs. -/
theorem c3_unchanged_idempotent_witness :
    modify_launch_options ['1'] ['x']
        (modify_launch_options ['1'] ['x'] (write_vdf Dict.nil 0) false []).2.1 false [] =
      (false,
       (modify_launch_options ['1'] ['x'] (write_vdf Dict.nil 0) false []).2.1, none) ∧
    modify_launch_options ['1'] ['x']
        (write_vdf (Dict.secCons "Software".toList (Dict.secCons "Valve".toList
          (Dict.secCons "Steam".toList (Dict.secCons "apps".toList
            (Dict.secCons ['1'] (Dict.leafCons lkey ['x'] Dict.nil) Dict.nil)
            Dict.nil) Dict.nil) Dict.nil) Dict.nil) 0) true "n".toList =
      (false,
       write_vdf (Dict.secCons "Software".toList (Dict.secCons "Valve".toList
         (Dict.secCons "Steam".toList (Dict.secCons "apps".toList
           (Dict.secCons ['1'] (Dict.leafCons lkey ['x'] Dict.nil) Dict.nil)
           Dict.nil) Dict.nil) Dict.nil) Dict.nil) 0, none) :=
  ⟨c3_unchanged_idempotent.2 Dict.nil ['1'] ['x'] [] []
     (by decide) (by decide) (by decide) (by decide),
   c3_unchanged_idempotent.1 ['1'] ['x'] _ true "n".toList
     (Dict.leafCons lkey ['x'] Dict.nil) (by decide) (by decide)⟩

/-- C4: in the model, parsing `n` nested `"a" {` openers builds the tree of
depth `n`, one recursive `parse_tokens` invocation per nesting level — the
recursion depth of the source's `parse_tokens` equals the input's nesting
depth, which is what makes the Python implementation (native recursion, not
an explicit stack) exceed the interpreter recursion limit on deep input. -/
theorem c4_nested_parse : ∀ n, (parse_tokens (nestTokens n)).1 = nestedDict n :=
  parse_tokens_nest

/-- C5: parser totality and leniency.  First: an unterminated quoted string
extends silently to the end of input.  Second: a token stream with no close
brace is consumed in full — end of stream implicitly closes all open
sections and the tree built so far is returned (no error).  Third: the
concrete unclosed input `"A" { "B" "1"` parses to the expected tree. -/
theorem c5_lenient :
    (∀ (s : List Char), noQuote s = true → tokenize ('"' :: s) = [Token.string s]) ∧
    (∀ (ts : List Token), Token.braceClose ∉ ts → (parse_tokens ts).2 = []) ∧
    parse_vdf "\"A\"\n\x7b\n\"B\"\t\t\"1\"".toList =
      Dict.secCons "A".toList (Dict.leafCons "B".toList "1".toList Dict.nil) Dict.nil := by
  refine ⟨fun s h => tokenize_unterminated h,
    fun ts h => parseLoop_no_close ts.length Dict.nil ts h (le_refl _), by decide⟩

/-- C5 witness: both hypotheses discharged at concrete inputs. -/
theorem c5_lenient_witness :
    tokenize ('"' :: "ab".toList) = [Token.string "ab".toList] ∧
    (parse_tokens [Token.string ['A'], Token.braceOpen,
      Token.string ['B'], Token.string ['1']]).2 = [] :=
  ⟨c5_lenient.1 _ (by decide), c5_lenient.2.1 _ (by decide)⟩

/-- C6, counterexample: an excess close brace does not merely get ignored —
it terminates parsing, so the entry `"A" "v"` after a stray `}` is NOT
recorded (the same input without the stray brace is). -/
theorem c6_close_counterexample :
    parse_vdf ('}' :: "\"A\"\t\t\"v\"".toList) = Dict.nil ∧
    dget? (parse_vdf ('}' :: "\"A\"\t\t\"v\"".toList)) "A".toList = none ∧
    parse_vdf "\"A\"\t\t\"v\"".toList = Dict.leafCons "A".toList "v".toList Dict.nil := by
  refine ⟨by decide, by decide, by decide⟩

/-- C6, amended: a BraceClose while expecting a key pops the current
section (returns the result built so far with the brace consumed); a
BraceClose in excess of the open sections — one met at the outermost level
— makes the top-level `parse_tokens` return immediately, discarding all
remaining tokens. -/
theorem c6_close_brace :
    (∀ (fuel : Nat) (acc : Dict) (ts : List Token),
      parseLoop (fuel+1) acc (Token.braceClose :: ts) = (acc, ts)) ∧
    (∀ (rest : List Token), (parse_tokens (Token.braceClose :: rest)).1 = Dict.nil) := by
  constructor
  · exact parseLoop_close
  · intro rest
    show (parseLoop (rest.length+1) Dict.nil (Token.braceClose :: rest)).1 = Dict.nil
    rw [parseLoop_close]

/-- C7, counterexample: for the input `"A" { "B" } "C" "v"`, the bare key
`B` is dropped, but the close brace is NOT consumed by the inner level: it
additionally pops the enclosing level, so the top-level entry `"C" "v"` is
lost — the enclosing structure is disturbed, contradicting the claim. -/
theorem c7_bare_key_counterexample :
    parse_vdf "\"A\"\n\x7b\n\"B\"\n\x7d\n\"C\"\t\t\"v\"\n".toList =
      Dict.secCons "A".toList Dict.nil Dict.nil ∧
    dget? (parse_vdf "\"A\"\n\x7b\n\"B\"\n\x7d\n\"C\"\t\t\"v\"\n".toList)
      "C".toList = none := by
  refine ⟨by decide, by decide⟩

/-- C7, amended: a quoted key immediately followed by BraceClose is dropped
(no node created, the result so far is returned unchanged), but the
BraceClose is NOT consumed: it is left in the stream, where it additionally
closes the enclosing section — one brace ends two levels. -/
theorem c7_bare_key_drop :
    ∀ (fuel : Nat) (acc : Dict) (k : List Char) (ts : List Token),
      parseLoop (fuel+1) acc (Token.string k :: Token.braceClose :: ts) =
        (acc, Token.braceClose :: ts) := by
  intro fuel acc k ts
  rw [parseLoop_string, skipEmpty_cons_ne (by simp) _]

/-- C8: batch accounting.  First: for every batch, modified + skipped =
total, so every item is processed and counted — one item's failure never
aborts the rest.  Second: when every target currently holds a
`LaunchOptions` value different from the template (so each item reaches the
confirmation prompt), the counters are exactly `{applied: M, skipped: N-M,
total: N}` where `M` is the number of identities the operator answers `y`
for.  Third: an item whose path is structurally blocked is counted as
skipped and the batch continues on the unchanged file. -/
theorem c8_batch_accounting :
    (∀ (template : List Char) (resp : List Char → List Char)
        (ids : List (List Char)) (content : List Char),
      (modify_all_loop template resp ids content).1 +
        (modify_all_loop template resp ids content).2.1 = ids.length) ∧
    (∀ (template : List Char) (resp : List Char → List Char)
        (ids : List (List Char)) (d : Dict),
      goodDict d = true → noQuote template = true → template ≠ [] → ids.Nodup →
      (∀ i ∈ ids, noQuote i = true ∧ hasOtherValue d i template = true) →
      (modify_all_loop template resp ids (write_vdf d 0)).1 =
        (ids.filter (fun i => decide (resp i = "y".toList))).length ∧
      (modify_all_loop template resp ids (write_vdf d 0)).2.1 =
        ids.length - (ids.filter (fun i => decide (resp i = "y".toList))).length) ∧
    (∀ (template : List Char) (resp : List Char → List Char) (id : List Char)
        (ids : List (List Char)) (content : List Char),
      pathBlocked (parse_vdf content) (steam_path_keys id) = true →
      modify_all_loop template resp (id :: ids) content =
        ((modify_all_loop template resp ids content).1,
         (modify_all_loop template resp ids content).2.1 + 1,
         (modify_all_loop template resp ids content).2.2)) := by
  refine ⟨batch_total, ?_, ?_⟩
  · intro template resp ids d hd ht htne hnodup hall
    obtain ⟨h1, h2⟩ := batch_counts resp ids d hd ht htne hnodup hall
    have h3 := batch_total template resp ids (write_vdf d 0)
    have h4 : (ids.filter (fun i => decide (resp i = "y".toList))).length +
        (ids.filter (fun i => !decide (resp i = "y".toList))).length = ids.length := by
      omega
    exact ⟨h1, by omega⟩
  · intro template resp id ids content h
    exact modify_all_loop_cons_false resp ids (modify_blocked h)

/-- C8 witness: a two-app file where the operator approves app `10` and
declines app `20`: one applied, one skipped. -/
theorem c8_batch_accounting_witness :
    (modify_all_loop "new".toList
        (fun i => if i = "10".toList then "y".toList else "n".toList)
        ["10".toList, "20".toList]
        (write_vdf (Dict.secCons "Software".toList (Dict.secCons "Valve".toList
          (Dict.secCons "Steam".toList (Dict.secCons "apps".toList
            (Dict.secCons "10".toList (Dict.leafCons lkey "old1".toList Dict.nil)
              (Dict.secCons "20".toList (Dict.leafCons lkey "old2".toList Dict.nil)
                Dict.nil)) Dict.nil) Dict.nil) Dict.nil) Dict.nil) 0)).1 = 1 ∧
    (modify_all_loop "new".toList
        (fun i => if i = "10".toList then "y".toList else "n".toList)
        ["10".toList, "20".toList]
        (write_vdf (Dict.secCons "Software".toList (Dict.secCons "Valve".toList
          (Dict.secCons "Steam".toList (Dict.secCons "apps".toList
            (Dict.secCons "10".toList (Dict.leafCons lkey "old1".toList Dict.nil)
              (Dict.secCons "20".toList (Dict.leafCons lkey "old2".toList Dict.nil)
                Dict.nil)) Dict.nil) Dict.nil) Dict.nil) Dict.nil) 0)).2.1 = 1 := by
  have h := c8_batch_accounting.2.1 "new".toList
      (fun i => if i = "10".toList then "y".toList else "n".toList)
      ["10".toList, "20".toList]
      (Dict.secCons "Software".toList (Dict.secCons "Valve".toList
        (Dict.secCons "Steam".toList (Dict.secCons "apps".toList
          (Dict.secCons "10".toList (Dict.leafCons lkey "old1".toList Dict.nil)
            (Dict.secCons "20".toList (Dict.leafCons lkey "old2".toList Dict.nil)
              Dict.nil)) Dict.nil) Dict.nil) Dict.nil) Dict.nil)
      (by decide) (by decide) (by decide) (by decide) (by decide)
  exact ⟨by rw [h.1]; decide, by rw [h.2]; decide⟩

/-- C9: backup log discipline.  Appending to an existing log yields exactly
the old content followed by one row `| <identity> | <old value> |` — the
old content is preserved verbatim as a prefix (never truncated or
rewritten); the first write emits the header block (title, generation
timestamp, column header, separator) followed by that one row. -/
theorem c9_backup_log :
    ∀ (game_id original_value generated_ts existing : List Char),
      create_backup game_id original_value generated_ts (some existing) =
        existing ++ backup_row game_id original_value ∧
      (create_backup game_id original_value generated_ts (some existing)).take
          existing.length = existing ∧
      create_backup game_id original_value generated_ts none =
        backup_header generated_ts ++ backup_row game_id original_value := by
  intro game_id original_value generated_ts existing
  refine ⟨rfl, ?_, rfl⟩
  show (existing ++ backup_row game_id original_value).take existing.length = existing
  exact List.take_left existing _

/-- C10: for every input string, the tree built by `parse_vdf` contains no
leaf whose value is the empty string; and indeed an empty quoted-string
token right after a key is consumed by the separator-skipping loop. -/
theorem c10_no_empty_leaf :
    (∀ (content : List Char), noEmptyLeaf (parse_vdf content) = true) ∧
    (∀ (ts : List Token), skipEmpty (Token.string [] :: ts) = skipEmpty ts) := by
  constructor
  · intro content
    exact parseLoop_noEmptyLeaf _ _ _ rfl
  · intro ts
    simp [skipEmpty]
